import Mathlib

/-!
# Verification of the machineboss WFST evaluation core

A shallow embedding of the repository's data model and operations:
the symbolic `Machine` (machine.h), its evaluated numerical form
`EvaluatedMachine` (eval.cpp), the silent-transition geometric closure
`sumInTrans`, the reverse mapping `explicitMachine`, the parameter
binding `Params` (params.cpp), and the base-calling state indexing
(nano/caller.h).  C++ doubles are modelled as real numbers; the C++
`std::map` / `std::multimap` adjacency containers are modelled as
association lists sorted by key, with equal keys kept in insertion
order, which reproduces the containers' iteration order.
-/

/-! ## JSON values (state names, parameter files) -/

/-- A JSON value, as used for state names (`StateName = json` in machine.h)
and for the parameter files read by `Params::readJson`. -/
inductive Json where
  | null : Json
  | num (x : ℝ) : Json
  | str (s : String) : Json
  | arr (xs : List Json) : Json
  | obj (fields : List (String × Json)) : Json

/-- Association-list lookup (first match wins), used for parameter maps. -/
def alookup (k : String) : List (String × α) → Option α
  | [] => none
  | (k', v) :: rest => if k = k' then some v else alookup k rest

/-! ## Weight expressions and their evaluation

weight.h is not among the staged sources; the expression type and its
evaluator are modelled from the spec (§3, §4.B). -/

/-- Modelled from the spec: the `WeightExpr` tagged variant of weight.h
(absent from the staged sources): literal constant, named parameter,
n-ary sum and product, reciprocal, log, exp, and power with integer
exponent. -/
inductive WeightExpr where
  | lit (x : ℝ) : WeightExpr
  | param (name : String) : WeightExpr
  | sum (xs : List WeightExpr) : WeightExpr
  | prod (xs : List WeightExpr) : WeightExpr
  | recip (x : WeightExpr) : WeightExpr
  | logOf (x : WeightExpr) : WeightExpr
  | expOf (x : WeightExpr) : WeightExpr
  | pow (base : WeightExpr) (k : ℤ) : WeightExpr

/-- A parameter binding: name to real value. -/
abbrev ParamMap := List (String × ℝ)

/-- Modelled from the spec: `WeightAlgebra::eval` of weight.h (absent from
the staged sources), §4.B.  The spec's failure points (unbound parameter,
reciprocal of 0, log of a non-positive value) are totalised with
Mathlib's junk-value conventions (`getD 0`, division by zero, `Real.log`
of a non-positive argument); no claim under verification exercises them. -/
noncomputable def WeightAlgebra.eval (defs : ParamMap) : WeightExpr → ℝ
  | .lit x => x
  | .param n => (alookup n defs).getD 0
  | .sum xs => (xs.attach.map (fun e => WeightAlgebra.eval defs e.1)).sum
  | .prod xs => (xs.attach.map (fun e => WeightAlgebra.eval defs e.1)).prod
  | .recip x => (WeightAlgebra.eval defs x)⁻¹
  | .logOf x => Real.log (WeightAlgebra.eval defs x)
  | .expOf x => Real.exp (WeightAlgebra.eval defs x)
  | .pow b k => (WeightAlgebra.eval defs b) ^ k
termination_by e => sizeOf e
decreasing_by
  all_goals first
    | (have h := List.sizeOf_lt_of_mem e.2; simp at h ⊢; try omega)
    | (simp; try omega)

/-! ## Params (params.cpp) -/

/-- The parameter binding object of params.cpp: a map from parameter name
to real value (`param[key] = value`), modelled as a key-sorted
association list like `std::map`. -/
structure Params where
  param : List (String × ℝ)

/-- Modelled from the spec: params.h is absent from the staged sources;
`defs` is the name under which eval.cpp reads the binding map
(`params->defs`), the same name-to-value map `param` holds. -/
def Params.defs (p : Params) : ParamMap := p.param

/-- The error kinds of §7 exercised by the staged code. -/
inductive MBError where
  | NotAdvancing : MBError
  | NonConvergent : MBError
  | SchemaViolation : MBError
deriving DecidableEq

/-- Modelled from the spec: `MachineSchema::validateOrDie ("params", pj)`
(schema.h is absent from the staged sources).  §4.D and §6: the params
schema admits exactly a flat JSON object whose values are numbers. -/
def validateParams : Json → Bool
  | .obj fields => fields.all (fun f => match f.2 with | .num _ => true | _ => false)
  | _ => false

/-- The numeric value of a (validated) JSON number, `iter.value().get<double>()`. -/
def Json.numVal : Json → ℝ
  | .num x => x
  | _ => 0

/-- `std::map` insert-or-assign keyed by string, keeping the list sorted. -/
def assocSet : List (String × ℝ) → String → ℝ → List (String × ℝ)
  | [], k, v => [(k, v)]
  | (k', v') :: rest, k, v =>
    if k < k' then (k, v) :: (k', v') :: rest
    else if k = k' then (k, v) :: rest
    else (k', v') :: assocSet rest k v

/-- `Params::readJson (const json&)` of params.cpp: validate against the
params schema (dying on violation, before anything is modified), then
clear the map, then fill it with the object's key/value pairs.  The
result pairs the post-call state of the object with the error, if any:
on a schema violation the object is returned untouched. -/
def Params.readJson (p : Params) (j : Json) : Params × Option MBError :=
  if validateParams j then
    match j with
    | .obj fields => (⟨fields.foldl (fun mp kv => assocSet mp kv.1 kv.2.numVal) []⟩, none)
    | _ => (⟨[]⟩, none)
  else (p, some .SchemaViolation)

/-! ## The symbolic Machine (machine.h) -/

/-- `MachineTransition` of machine.h: input symbol, output symbol,
destination state and symbolic weight.  (`in` is a Lean keyword, so the
input symbol field is `inp`.) -/
structure MachineTransition where
  inp : String
  out : String
  dest : ℕ
  weight : WeightExpr

/-- `MachineTransition::inputEmpty`: the input symbol is the empty symbol. -/
def MachineTransition.inputEmpty (t : MachineTransition) : Bool := t.inp = ""

/-- `MachineTransition::outputEmpty`: the output symbol is the empty symbol. -/
def MachineTransition.outputEmpty (t : MachineTransition) : Bool := t.out = ""

/-- `MachineTransition::isSilent`: `inputEmpty() && outputEmpty()`. -/
def MachineTransition.isSilent (t : MachineTransition) : Bool :=
  t.inputEmpty && t.outputEmpty

/-- `MachineState` of machine.h: a JSON name and an ordered transition list. -/
structure MachineState where
  name : Json
  trans : List MachineTransition

/-- `Machine` of machine.h: an ordered sequence of states. -/
structure Machine where
  state : List MachineState

/-- `Machine::nStates`: the number of states. -/
def Machine.nStates (m : Machine) : ℕ := m.state.length

/-- The state at an index (out-of-range reads yield an inert default). -/
def Machine.stateAt (m : Machine) (s : ℕ) : MachineState :=
  m.state.getD s ⟨Json.null, []⟩

/-- Modelled from the spec: `Machine::isAdvancingMachine` (machine.cpp is
absent from the staged sources); machine.h documents it as "no silent
i->j transitions where j<i". -/
def Machine.isAdvancingMachine (m : Machine) : Bool :=
  (List.range m.nStates).all fun i =>
    (m.stateAt i).trans.all fun t => !t.isSilent || decide (i ≤ t.dest)

/-- Append a symbol if it has not been seen yet (first-seen dedup). -/
def addFirstSeen (acc : List String) (x : String) : List String :=
  if x ∈ acc then acc else acc ++ [x]

/-- Modelled from the spec: `Machine::inputAlphabet` (machine.cpp is absent
from the staged sources); §4.C: the distinct non-empty input labels in
first-seen order, scanning states then transitions. -/
def Machine.inputAlphabet (m : Machine) : List String :=
  ((m.state.flatMap (fun st => st.trans.map (·.inp))).filter (· ≠ "")).foldl addFirstSeen []

/-- Modelled from the spec: `Machine::outputAlphabet`, dually. -/
def Machine.outputAlphabet (m : Machine) : List String :=
  ((m.state.flatMap (fun st => st.trans.map (·.out))).filter (· ≠ "")).foldl addFirstSeen []

/-! ## Tokenizer -/

/-- The symbol tokenizer: `tok2sym` with the empty symbol at token 0, the
remaining symbols numbered in alphabet (first-seen) order. -/
structure Tokenizer where
  tok2sym : List String

/-- A tokenizer for an alphabet: token 0 is reserved for the empty symbol. -/
def Tokenizer.ofAlphabet (alph : List String) : Tokenizer := ⟨"" :: alph⟩

/-- `sym2tok.at`: the token of a symbol (its index in `tok2sym`). -/
def Tokenizer.sym2tok (tk : Tokenizer) (s : String) : ℕ := tk.tok2sym.indexOf s

/-- `emptyToken()`: the reserved empty token. -/
def Tokenizer.emptyToken (_tk : Tokenizer) : ℕ := 0

/-! ## The evaluated machine (eval.cpp) -/

/-- `EvaluatedMachineState::Trans`: a log-weight and the per-state edge
ordinal. -/
structure EvalTrans where
  logWeight : ℝ
  transIndex : ℕ

/-- `StateTransMap`, a `std::multimap<StateIndex, Trans>`: sorted by key,
equal keys in insertion order. -/
abbrev StateTransMap := List (ℕ × EvalTrans)

/-- The `std::map<OutputToken, StateTransMap>` layer. -/
abbrev OutTransMap := List (ℕ × StateTransMap)

/-- The `std::map<InputToken, map<OutputToken, StateTransMap>>` adjacency. -/
abbrev InOutTransMap := List (ℕ × OutTransMap)

/-- `multimap::insert`: place the new pair after all entries with a key
`≤ k` (C++ multimaps keep equal keys in insertion order). -/
def insertMulti (k : ℕ) (v : EvalTrans) : StateTransMap → StateTransMap
  | [] => [(k, v)]
  | (k', v') :: rest =>
    if k < k' then (k, v) :: (k', v') :: rest else (k', v') :: insertMulti k v rest

/-- Insert into the output-token layer (`operator[]` default-constructs a
missing inner map). -/
def insertOut (oT : ℕ) (d : ℕ) (tr : EvalTrans) : OutTransMap → OutTransMap
  | [] => [(oT, [(d, tr)])]
  | (k, stm) :: rest =>
    if oT < k then (oT, [(d, tr)]) :: (k, stm) :: rest
    else if oT = k then (k, insertMulti d tr stm) :: rest
    else (k, stm) :: insertOut oT d tr rest

/-- Insert into the input-token layer: the effect of
`adj[inT][outT].insert({d, tr})`. -/
def insertIn (iT oT d : ℕ) (tr : EvalTrans) : InOutTransMap → InOutTransMap
  | [] => [(iT, insertOut oT d tr [])]
  | (k, otm) :: rest =>
    if iT < k then (iT, insertOut oT d tr []) :: (k, otm) :: rest
    else if iT = k then (k, insertOut oT d tr otm) :: rest
    else (k, otm) :: insertIn iT oT d tr rest

/-- `EvaluatedMachineState` (declared in eval.h, filled by
`EvaluatedMachine::init`): name, incoming and outgoing adjacency, the
per-state transition count and the global transition offset. -/
structure EvaluatedMachineState where
  name : Json
  incoming : InOutTransMap
  outgoing : InOutTransMap
  nTransitions : ℕ
  transOffset : ℕ

/-- The default-constructed evaluated state the `state` vector starts from. -/
def emptyEvalState : EvaluatedMachineState := ⟨Json.null, [], [], 0, 0⟩

/-- `EvaluatedMachine`: the tokenizers frozen at construction, the
evaluated states and the total transition count. -/
structure EvaluatedMachine where
  inputTokenizer : Tokenizer
  outputTokenizer : Tokenizer
  state : List EvaluatedMachineState
  nTransitions : ℕ

/-- `EvaluatedMachine::nStates`: the number of evaluated states. -/
def EvaluatedMachine.nStates (em : EvaluatedMachine) : ℕ := em.state.length

/-- The evaluated state at an index. -/
def EvaluatedMachine.stateAt (em : EvaluatedMachine) (s : ℕ) : EvaluatedMachineState :=
  em.state.getD s emptyEvalState

/-- Modify the element of a list at an index (no effect out of range). -/
def lmod : List α → ℕ → (α → α) → List α
  | [], _, _ => []
  | x :: xs, 0, f => f x :: xs
  | x :: xs, i + 1, f => x :: lmod xs i f

/-- The log-weight `init` stores for a transition:
`params ? log (WeightAlgebra::eval (trans.weight, params->defs)) : 0.`. -/
noncomputable def evalLogWeight (p : Option Params) (t : MachineTransition) : ℝ :=
  match p with
  | some pm => Real.log (WeightAlgebra.eval pm.defs t.weight)
  | none => 0

/-- One transition of `init`'s inner loop: record the pair in
`state[s].outgoing[in][out]` and mirror it in `state[d].incoming[in][out]`. -/
noncomputable def addTransPair (itok otok : Tokenizer) (p : Option Params) (s : ℕ)
    (t : MachineTransition) (ti : ℕ) (sts : List EvaluatedMachineState) :
    List EvaluatedMachineState :=
  lmod
    (lmod sts s (fun es =>
      { es with outgoing :=
          (insertIn (itok.sym2tok t.inp) (otok.sym2tok t.out) t.dest
            ⟨evalLogWeight p t, ti⟩ es.outgoing) }))
    t.dest
    (fun es =>
      { es with incoming :=
          (insertIn (itok.sym2tok t.inp) (otok.sym2tok t.out) s
            ⟨evalLogWeight p t, ti⟩ es.incoming) })

/-- `init`'s inner loop over the transitions of state `s`, counting `ti`. -/
noncomputable def processTrans (itok otok : Tokenizer) (p : Option Params) (s : ℕ) :
    List MachineTransition → ℕ → List EvaluatedMachineState →
    ℕ × List EvaluatedMachineState
  | [], ti, sts => (ti, sts)
  | t :: rest, ti, sts =>
    processTrans itok otok p s rest (ti + 1) (addTransPair itok otok p s t ti sts)

/-- `init`'s outer loop over the states, accumulating `tiCum`: set the
name, insert the outgoing/incoming records of every transition, then set
`nTransitions` and `transOffset`. -/
noncomputable def initStates (itok otok : Tokenizer) (p : Option Params) :
    List MachineState → ℕ → ℕ → List EvaluatedMachineState →
    List EvaluatedMachineState × ℕ
  | [], _, tiCum, sts => (sts, tiCum)
  | ms :: rest, s, tiCum, sts =>
    let sts1 := lmod sts s (fun es => { es with name := ms.name })
    let r := processTrans itok otok p s ms.trans 0 sts1
    let sts2 := lmod r.2 s (fun es => { es with nTransitions := r.1, transOffset := tiCum })
    initStates itok otok p rest (s + 1) (tiCum + r.1) sts2

/-- `EvaluatedMachine::init` (minus the advancing assertion, kept in
`evaluate`): tokenize the alphabets, then fill the state vector. -/
noncomputable def EvaluatedMachine.ofMachine (m : Machine) (p : Option Params) :
    EvaluatedMachine :=
  let itok := Tokenizer.ofAlphabet m.inputAlphabet
  let otok := Tokenizer.ofAlphabet m.outputAlphabet
  let r := initStates itok otok p m.state 0 0 (List.replicate m.nStates emptyEvalState)
  ⟨itok, otok, r.1, r.2⟩

/-- The `EvaluatedMachine` constructors: `Assert (machine.isAdvancingMachine(),
"Machine is not topologically sorted")` is a fatal error, so a
non-advancing machine yields no object. -/
noncomputable def evaluate (m : Machine) (p : Option Params) :
    Except MBError EvaluatedMachine :=
  if m.isAdvancingMachine then .ok (.ofMachine m p) else .error .NotAdvancing

/-! ## The reverse mapping (explicitMachine) -/

/-- `EvaluatedMachine::explicitMachine`: rebuild a symbolic machine, each
transition's weight the literal `exp (logWeight)`, transitions read back
in the adjacency maps' iteration order. -/
noncomputable def EvaluatedMachine.explicitMachine (em : EvaluatedMachine) : Machine :=
  { state := em.state.map fun ems =>
      { name := ems.name
        trans := ems.outgoing.flatMap fun iP =>
          iP.2.flatMap fun oP =>
            oP.2.map fun dP =>
              ⟨em.inputTokenizer.tok2sym.getD iP.1 "",
               em.outputTokenizer.tok2sym.getD oP.1 "",
               dP.1,
               WeightExpr.lit (Real.exp dP.2.logWeight)⟩ } }

/-! ## The silent-transition geometric closure (sumInTrans) -/

/-- `SuspiciouslyLargeProbabilityWarningThreshold` of eval.cpp. -/
def SuspiciouslyLargeProbabilityWarningThreshold : ℝ := 1.01

/-- The entries `sumInTrans`'s loop visits for a source state: for each
input token, the inner map at the null output token, if present. -/
def nullTransEntries (iost : InOutTransMap) : List (ℕ × EvalTrans) :=
  iost.flatMap fun iP =>
    match (iP.2.find? (fun q => q.1 = 0)) with
    | some q => q.2
    | none => []

/-- The output-empty entries leaving state `src`. -/
def EvaluatedMachine.nullEntriesAt (em : EvaluatedMachine) (src : ℕ) :
    List (ℕ × EvalTrans) :=
  nullTransEntries (em.stateAt src).outgoing

/-- The running state of one row of `sumInTrans`'s matrix-building loop:
the matrix, the accumulated exit probability of the row's source state,
and the warnings emitted so far. -/
structure ClosureRow (n : ℕ) where
  mat : Matrix (Fin n) (Fin n) ℝ
  pExit : ℝ
  warns : List (ℕ × ℝ)

/-- One output-empty transition of `sumInTrans`'s loop:
`p = exp (logWeight)`; `oneMinusNullTrans[src][d] -= p`;
`pExit[src] += p`; warn if `pExit[src]` exceeds the threshold. -/
noncomputable def closureStep (n : ℕ) (src : ℕ) (st : ClosureRow n) (e : ℕ × EvalTrans) :
    ClosureRow n :=
  { mat := fun s d =>
      if s.val = src ∧ d.val = e.1 then st.mat s d - Real.exp e.2.logWeight
      else st.mat s d
    pExit := st.pExit + Real.exp e.2.logWeight
    warns :=
      if SuspiciouslyLargeProbabilityWarningThreshold
          < st.pExit + Real.exp e.2.logWeight then
        st.warns ++ [(src, st.pExit + Real.exp e.2.logWeight)]
      else st.warns }

/-- One source state of `sumInTrans`'s matrix-building loop: set the
diagonal entry `oneMinusNullTrans[src][src] = 1`, then walk the
output-empty entries leaving `src` with `pExit[src]` starting at 0. -/
noncomputable def closureSrcStep (em : EvaluatedMachine)
    (acc : Matrix (Fin em.nStates) (Fin em.nStates) ℝ × List (ℕ × ℝ)) (src : ℕ) :
    Matrix (Fin em.nStates) (Fin em.nStates) ℝ × List (ℕ × ℝ) :=
  let st := (em.nullEntriesAt src).foldl (closureStep em.nStates src)
    ⟨fun s d => if s.val = src ∧ d.val = src then 1 else acc.1 s d, 0, acc.2⟩
  (st.mat, st.warns)

/-- The matrix-building loop of `sumInTrans`: starting from the zero
matrix, for each source state set the diagonal entry to 1 and subtract
`exp (logWeight)` of every output-empty transition, collecting the
exit-probability warnings. -/
noncomputable def EvaluatedMachine.closureLoop (em : EvaluatedMachine) :
    Matrix (Fin em.nStates) (Fin em.nStates) ℝ × List (ℕ × ℝ) :=
  (List.range em.nStates).foldl (closureSrcStep em) (0, [])

/-- `EvaluatedMachine::sumInTrans`: build `M = I - N`, invert it, and
return the element-wise log, paired with the warnings the loop emitted.
Modelled from the spec for the part the staged sources delegate to GSL:
`gsl_linalg_LU_decomp` / `gsl_linalg_LU_invert` compute `M⁻¹`, and §4.E
has non-invertibility of `M` fail with *NonConvergent*. -/
noncomputable def EvaluatedMachine.sumInTrans (em : EvaluatedMachine) :
    List (ℕ × ℝ) × Except MBError (Matrix (Fin em.nStates) (Fin em.nStates) ℝ) :=
  let r := em.closureLoop
  (r.2, if r.1.det = 0 then .error .NonConvergent
        else .ok (fun s d => Real.log (r.1⁻¹ s d)))

/-! ## Closed forms the claims are stated with -/

/-- `N (s, d)` of the spec: `exp (logWeight)` summed over the output-empty
transitions `s → d`. -/
noncomputable def EvaluatedMachine.nullTransWeight (em : EvaluatedMachine) (s d : ℕ) : ℝ :=
  (((em.nullEntriesAt s).filter (fun e => e.1 = d)).map
    (fun e => Real.exp e.2.logWeight)).sum

/-- The matrix `N` of the spec, over the in-range states. -/
noncomputable def EvaluatedMachine.nullTransMat (em : EvaluatedMachine) :
    Matrix (Fin em.nStates) (Fin em.nStates) ℝ :=
  fun s d => em.nullTransWeight s.val d.val

/-- The total probability exiting a state via output-empty transitions. -/
noncomputable def EvaluatedMachine.pExitTotal (em : EvaluatedMachine) (s : ℕ) : ℝ :=
  ((em.nullEntriesAt s).map (fun e => Real.exp e.2.logWeight)).sum

/-- The weight of one walk: the product of the step weights along
`s :: l`. -/
noncomputable def chainProd {n : ℕ} (N : Matrix (Fin n) (Fin n) ℝ) :
    Fin n → List (Fin n) → ℝ
  | _, [] => 1
  | x, y :: rest => N x y * chainProd N y rest

/-- The total weight of the length-`k` walks from `s` to `d` (the
zero-length walk from `s` to itself has weight 1). -/
noncomputable def walkWeight {n : ℕ} (N : Matrix (Fin n) (Fin n) ℝ) (k : ℕ)
    (s d : Fin n) : ℝ :=
  ∑ v : Fin k → Fin n,
    if (List.ofFn v).getLastD s = d then chainProd N s (List.ofFn v) else 0

/-- The image of one source transition in the evaluated adjacency:
tokenized labels, destination, log-weight, and its edge ordinal. -/
noncomputable def tokTrans (itok otok : Tokenizer) (p : Option Params) (ti : ℕ)
    (t : MachineTransition) : ℕ × ℕ × ℕ × EvalTrans :=
  (itok.sym2tok t.inp, otok.sym2tok t.out, t.dest, ⟨evalLogWeight p t, ti⟩)

/-- Flatten an output-token layer to its (outTok, dest, trans) entries in
iteration order. -/
def flatOut (otm : OutTransMap) : List (ℕ × ℕ × EvalTrans) :=
  otm.flatMap fun oP => oP.2.map fun dP => (oP.1, dP.1, dP.2)

/-- Flatten a nested adjacency map to its (inTok, outTok, dest, trans)
entries in iteration order. -/
def flatTrans (iost : InOutTransMap) : List (ℕ × ℕ × ℕ × EvalTrans) :=
  iost.flatMap fun iP => (flatOut iP.2).map fun q => (iP.1, q.1, q.2.1, q.2.2)

/-- The state vector entry at an index. -/
def stsAt (sts : List EvaluatedMachineState) (u : ℕ) : EvaluatedMachineState :=
  sts.getD u emptyEvalState

/-! ## Base calling (nano/caller.h) -/

/-- `BaseCallingMachine` of nano/caller.h: a machine with a component
count and a kmer count, and the fixed state-index convention below. -/
structure BaseCallingMachine extends Machine where
  components : ℕ
  nKmers : ℕ

/-- `kmerEmit (kmer, component) = 1 + component * nKmers + kmer`. -/
def BaseCallingMachine.kmerEmit (bcm : BaseCallingMachine) (kmer component : ℕ) : ℕ :=
  1 + component * bcm.nKmers + kmer

/-- `kmerEnd (kmer) = 1 + components * nKmers + kmer`. -/
def BaseCallingMachine.kmerEnd (bcm : BaseCallingMachine) (kmer : ℕ) : ℕ :=
  1 + bcm.components * bcm.nKmers + kmer

/-- `kmerStart (kmer) = 1 + (components + 1) * nKmers + kmer`. -/
def BaseCallingMachine.kmerStart (bcm : BaseCallingMachine) (kmer : ℕ) : ℕ :=
  1 + (bcm.components + 1) * bcm.nKmers + kmer

/-! ## Concrete machines used by witnesses and counterexamples -/

/-- A one-state machine whose first transition has a non-empty input and
whose second has a non-empty output: the output token of the first is 0
while its input token is 1, so the token-sorted adjacency maps iterate
the second transition first. -/
def mC4 : Machine :=
  ⟨[⟨Json.null, [⟨"x", "", 0, WeightExpr.lit 1⟩, ⟨"", "y", 0, WeightExpr.lit 1⟩]⟩]⟩

/-- A one-state machine with one parametrised transition, for the
stored-log-weight witness. -/
def mC3 : Machine :=
  ⟨[⟨Json.null, [⟨"a", "b", 0, WeightExpr.param "p"⟩]⟩]⟩

/-- A binding for `mC3`'s parameter. -/
def pC3 : Params := ⟨[("p", 2)]⟩

/-- A one-state machine with two output-empty self-loops: with no params
each has probability `exp 0 = 1`, so the exit-probability sum is 2. -/
def mC6 : Machine :=
  ⟨[⟨Json.null, [⟨"a", "", 0, WeightExpr.lit 1⟩, ⟨"b", "", 0, WeightExpr.lit 1⟩]⟩]⟩

/-- A two-state machine for the edge-indexing witness: state 1 has two
transitions and a nonzero transition offset. -/
def mC7 : Machine :=
  ⟨[⟨Json.null, [⟨"a", "", 1, WeightExpr.lit 1⟩]⟩,
    ⟨Json.null, [⟨"", "c", 1, WeightExpr.lit 1⟩, ⟨"b", "", 0, WeightExpr.lit 1⟩]⟩]⟩

/-- A one-state advancing machine with three silent self-loops: the
output-empty weight sum is 3, so `M = 1 - 3 = -2` and the "closure"
`G = -1/2` is negative. -/
def mC8 : Machine :=
  ⟨[⟨Json.null, [⟨"", "", 0, WeightExpr.lit 1⟩, ⟨"", "", 0, WeightExpr.lit 1⟩,
      ⟨"", "", 0, WeightExpr.lit 1⟩]⟩]⟩

/-- A one-state machine with no transitions: its output-empty weight
matrix is zero, so the geometric series of the closure converges. -/
def mNull : Machine := ⟨[⟨Json.null, []⟩]⟩

/-! ## Foundational lemmas: list modification and sorted insertion -/

theorem lmod_length (l : List α) (i : ℕ) (f : α → α) : (lmod l i f).length = l.length := by
  induction l generalizing i with
  | nil => rfl
  | cons x xs ih =>
    cases i with
    | zero => rfl
    | succ j => simp [lmod, ih]

theorem getD_lmod (l : List α) (i : ℕ) (f : α → α) (d : α) (u : ℕ) :
    (lmod l i f).getD u d =
      if i < l.length ∧ u = i then f (l.getD i d) else l.getD u d := by
  induction l generalizing i u with
  | nil => simp [lmod]
  | cons x xs ih =>
    cases i with
    | zero =>
      cases u with
      | zero => simp [lmod]
      | succ v => simp [lmod]
    | succ j =>
      cases u with
      | zero => simp [lmod]
      | succ v => simpa [lmod, Nat.succ_lt_succ_iff] using ih j v

theorem insertMulti_perm (k : ℕ) (v : EvalTrans) (stm : StateTransMap) :
    (insertMulti k v stm).Perm ((k, v) :: stm) := by
  induction stm with
  | nil => exact List.Perm.refl _
  | cons p rest ih =>
    simp only [insertMulti]
    split
    · exact List.Perm.refl _
    · exact (ih.cons p).trans (List.Perm.swap (k, v) p rest)

theorem flatOut_nil : flatOut [] = [] := rfl

theorem flatOut_cons (k : ℕ) (stm : StateTransMap) (rest : OutTransMap) :
    flatOut ((k, stm) :: rest) = stm.map (fun dP => (k, dP.1, dP.2)) ++ flatOut rest := by
  simp [flatOut]

theorem flatOut_insertOut (oT d : ℕ) (tr : EvalTrans) (otm : OutTransMap) :
    (flatOut (insertOut oT d tr otm)).Perm ((oT, d, tr) :: flatOut otm) := by
  induction otm with
  | nil => exact List.Perm.refl _
  | cons p rest ih =>
    obtain ⟨k, stm⟩ := p
    simp only [insertOut]
    split
    · exact List.Perm.refl _
    · split
      · rename_i h1 h2
        subst h2
        rw [flatOut_cons, flatOut_cons]
        exact (((insertMulti_perm d tr stm).map _).append_right (flatOut rest)).trans
          (List.Perm.refl _)
      · rename_i h1 h2
        rw [flatOut_cons, flatOut_cons]
        exact (((ih).append_left _)).trans List.perm_middle

theorem flatTrans_nil : flatTrans [] = [] := rfl

theorem flatTrans_cons (k : ℕ) (otm : OutTransMap) (rest : InOutTransMap) :
    flatTrans ((k, otm) :: rest)
      = (flatOut otm).map (fun q => (k, q.1, q.2.1, q.2.2)) ++ flatTrans rest := by
  simp [flatTrans]

theorem flatTrans_insertIn (iT oT d : ℕ) (tr : EvalTrans) (iost : InOutTransMap) :
    (flatTrans (insertIn iT oT d tr iost)).Perm ((iT, oT, d, tr) :: flatTrans iost) := by
  induction iost with
  | nil => exact List.Perm.refl _
  | cons p rest ih =>
    obtain ⟨k, otm⟩ := p
    simp only [insertIn]
    split
    · exact List.Perm.refl _
    · split
      · rename_i h1 h2
        subst h2
        rw [flatTrans_cons, flatTrans_cons]
        exact ((flatOut_insertOut oT d tr otm).map _).append_right (flatTrans rest)
      · rename_i h1 h2
        rw [flatTrans_cons, flatTrans_cons]
        exact ((ih).append_left _).trans List.perm_middle

theorem getD_lmod_ne (l : List α) (i : ℕ) (f : α → α) (d : α) (u : ℕ) (h : u ≠ i) :
    (lmod l i f).getD u d = l.getD u d := by
  rw [getD_lmod]; simp [h]

theorem getD_lmod_self (l : List α) (i : ℕ) (f : α → α) (d : α) (h : i < l.length) :
    (lmod l i f).getD i d = f (l.getD i d) := by
  rw [getD_lmod]; simp [h]

theorem stsAt_lmod_proj {β : Sort _} (proj : EvaluatedMachineState → β)
    (w : List EvaluatedMachineState) (i : ℕ) (g : EvaluatedMachineState → EvaluatedMachineState)
    (hg : ∀ es, proj (g es) = proj es) (u : ℕ) :
    proj (stsAt (lmod w i g) u) = proj (stsAt w u) := by
  unfold stsAt
  rw [getD_lmod]
  split
  · rename_i h
    rw [hg]
    rw [h.2]
  · rfl

theorem stsAt_lmod_self (w : List EvaluatedMachineState) (i : ℕ)
    (g : EvaluatedMachineState → EvaluatedMachineState) (h : i < w.length) :
    stsAt (lmod w i g) i = g (stsAt w i) := by
  unfold stsAt
  exact getD_lmod_self w i g emptyEvalState h

theorem addTransPair_length (itok otok : Tokenizer) (p : Option Params) (s : ℕ)
    (t : MachineTransition) (ti : ℕ) (sts : List EvaluatedMachineState) :
    (addTransPair itok otok p s t ti sts).length = sts.length := by
  simp [addTransPair, lmod_length]

theorem stsAt_addTransPair (itok otok : Tokenizer) (p : Option Params) (s : ℕ)
    (t : MachineTransition) (ti : ℕ) (sts : List EvaluatedMachineState) (u : ℕ) :
    ((stsAt (addTransPair itok otok p s t ti sts) u).name = (stsAt sts u).name) ∧
    ((stsAt (addTransPair itok otok p s t ti sts) u).nTransitions
      = (stsAt sts u).nTransitions) ∧
    ((stsAt (addTransPair itok otok p s t ti sts) u).transOffset
      = (stsAt sts u).transOffset) ∧
    (u ≠ s → (stsAt (addTransPair itok otok p s t ti sts) u).outgoing
      = (stsAt sts u).outgoing) ∧
    (s < sts.length → (stsAt (addTransPair itok otok p s t ti sts) s).outgoing
      = insertIn (itok.sym2tok t.inp) (otok.sym2tok t.out) t.dest
          ⟨evalLogWeight p t, ti⟩ (stsAt sts s).outgoing) := by
  unfold addTransPair stsAt
  simp only [getD_lmod, lmod_length]
  refine ⟨?_, ?_, ?_, ?_, ?_⟩
  · split <;> split <;> simp_all
  · split <;> split <;> simp_all
  · split <;> split <;> simp_all
  · intro hu
    split <;> split <;> simp_all
  · intro hlen
    split <;> split <;> first | (simp; done) | simp_all

theorem processTrans_effect (itok otok : Tokenizer) (p : Option Params) (s : ℕ)
    (ts : List MachineTransition) : ∀ (ti : ℕ) (sts : List EvaluatedMachineState),
    ((processTrans itok otok p s ts ti sts).1 = ti + ts.length) ∧
    ((processTrans itok otok p s ts ti sts).2.length = sts.length) ∧
    (∀ u, ((stsAt (processTrans itok otok p s ts ti sts).2 u).name = (stsAt sts u).name) ∧
          ((stsAt (processTrans itok otok p s ts ti sts).2 u).nTransitions
            = (stsAt sts u).nTransitions) ∧
          ((stsAt (processTrans itok otok p s ts ti sts).2 u).transOffset
            = (stsAt sts u).transOffset)) ∧
    (∀ u, u ≠ s → (stsAt (processTrans itok otok p s ts ti sts).2 u).outgoing
      = (stsAt sts u).outgoing) ∧
    (s < sts.length →
      (flatTrans (stsAt (processTrans itok otok p s ts ti sts).2 s).outgoing).Perm
        (((List.enumFrom ti ts).map (fun q => tokTrans itok otok p q.1 q.2))
          ++ flatTrans (stsAt sts s).outgoing)) := by
  induction ts with
  | nil =>
    intro ti sts
    refine ⟨by simp [processTrans], by simp [processTrans], ?_, ?_, ?_⟩
    · intro u; simp [processTrans]
    · intro u _; simp [processTrans]
    · intro _
      simp only [processTrans, List.enumFrom, List.map_nil, List.nil_append]
      exact List.Perm.refl _
  | cons t rest ih =>
    intro ti sts
    have hlen := addTransPair_length itok otok p s t ti sts
    have hrec := ih (ti + 1) (addTransPair itok otok p s t ti sts)
    refine ⟨?_, ?_, ?_, ?_, ?_⟩
    · show (processTrans itok otok p s rest (ti + 1) _).1 = _
      rw [hrec.1]
      simp; omega
    · show (processTrans itok otok p s rest (ti + 1) _).2.length = _
      rw [hrec.2.1, hlen]
    · intro u
      have h1 := hrec.2.2.1 u
      have h2 := stsAt_addTransPair itok otok p s t ti sts u
      exact ⟨h1.1.trans h2.1, h1.2.1.trans h2.2.1, h1.2.2.trans h2.2.2.1⟩
    · intro u hu
      have h1 := hrec.2.2.2.1 u hu
      have h2 := (stsAt_addTransPair itok otok p s t ti sts u).2.2.2.1 hu
      exact h1.trans h2
    · intro hs
      have hs' : s < (addTransPair itok otok p s t ti sts).length := by rw [hlen]; exact hs
      have hperm := hrec.2.2.2.2 hs'
      have hout := (stsAt_addTransPair itok otok p s t ti sts s).2.2.2.2 hs
      rw [hout] at hperm
      refine hperm.trans ?_
      refine (List.Perm.append_left _ (flatTrans_insertIn _ _ _ _ _)).trans ?_
      refine List.perm_middle.trans ?_
      simp only [List.enumFrom, List.map_cons, List.cons_append, tokTrans]
      exact List.Perm.refl _

theorem initStates_cons (itok otok : Tokenizer) (p : Option Params) (ms : MachineState)
    (rest : List MachineState) (s0 tiCum : ℕ) (sts : List EvaluatedMachineState) :
    initStates itok otok p (ms :: rest) s0 tiCum sts
      = initStates itok otok p rest (s0 + 1)
          (tiCum + (processTrans itok otok p s0 ms.trans 0
              (lmod sts s0 (fun es => { es with name := ms.name }))).1)
          (lmod (processTrans itok otok p s0 ms.trans 0
              (lmod sts s0 (fun es => { es with name := ms.name }))).2 s0
            (fun es =>
              { es with
                nTransitions := (processTrans itok otok p s0 ms.trans 0
                  (lmod sts s0 (fun es => { es with name := ms.name }))).1
                transOffset := tiCum })) := rfl

theorem initStates_effect (itok otok : Tokenizer) (p : Option Params)
    (msl : List MachineState) : ∀ (s0 tiCum : ℕ) (sts : List EvaluatedMachineState),
    s0 + msl.length ≤ sts.length →
    (((initStates itok otok p msl s0 tiCum sts).1).length = sts.length) ∧
    ((initStates itok otok p msl s0 tiCum sts).2
      = tiCum + (msl.map (fun ms => ms.trans.length)).sum) ∧
    (∀ u, u < s0 ∨ s0 + msl.length ≤ u →
      ((stsAt (initStates itok otok p msl s0 tiCum sts).1 u).name = (stsAt sts u).name ∧
       (stsAt (initStates itok otok p msl s0 tiCum sts).1 u).nTransitions
         = (stsAt sts u).nTransitions ∧
       (stsAt (initStates itok otok p msl s0 tiCum sts).1 u).transOffset
         = (stsAt sts u).transOffset ∧
       (stsAt (initStates itok otok p msl s0 tiCum sts).1 u).outgoing
         = (stsAt sts u).outgoing)) ∧
    (∀ i, i < msl.length →
      ((stsAt (initStates itok otok p msl s0 tiCum sts).1 (s0 + i)).name
         = (msl.getD i ⟨Json.null, []⟩).name ∧
       (stsAt (initStates itok otok p msl s0 tiCum sts).1 (s0 + i)).nTransitions
         = (msl.getD i ⟨Json.null, []⟩).trans.length ∧
       (stsAt (initStates itok otok p msl s0 tiCum sts).1 (s0 + i)).transOffset
         = tiCum + ((msl.take i).map (fun ms => ms.trans.length)).sum ∧
       (flatTrans (stsAt (initStates itok otok p msl s0 tiCum sts).1 (s0 + i)).outgoing).Perm
         (((List.enumFrom 0 (msl.getD i ⟨Json.null, []⟩).trans).map
             (fun q => tokTrans itok otok p q.1 q.2))
           ++ flatTrans (stsAt sts (s0 + i)).outgoing))) := by
  induction msl with
  | nil =>
    intro s0 tiCum sts h
    refine ⟨rfl, by simp [initStates], ?_, ?_⟩
    · intro u _; exact ⟨rfl, rfl, rfl, rfl⟩
    · intro i hi; exact absurd hi (Nat.not_lt_zero i)
  | cons ms rest ih =>
    intro s0 tiCum sts h
    rw [initStates_cons]
    set sts1 := lmod sts s0 (fun es => { es with name := ms.name }) with hsts1def
    set pr := processTrans itok otok p s0 ms.trans 0 sts1 with hprdef
    set sts2 := lmod pr.2 s0
      (fun es => { es with nTransitions := pr.1, transOffset := tiCum }) with hsts2def
    have hm := processTrans_effect itok otok p s0 ms.trans 0 sts1
    rw [← hprdef] at hm
    have hs0 : s0 < sts.length := by simp at h; omega
    have hl1 : sts1.length = sts.length := by rw [hsts1def]; exact lmod_length _ _ _
    have hl2 : pr.2.length = sts.length := by rw [hm.2.1]; exact hl1
    have hl3 : sts2.length = sts.length := by rw [hsts2def, lmod_length]; exact hl2
    have hpr1 : pr.1 = ms.trans.length := by simpa using hm.1
    have hrec := ih (s0 + 1) (tiCum + pr.1) sts2 (by rw [hl3]; simp at h ⊢; omega)
    have houtne : ∀ u, u ≠ s0 →
        ((stsAt sts2 u).name = (stsAt sts u).name ∧
         (stsAt sts2 u).nTransitions = (stsAt sts u).nTransitions ∧
         (stsAt sts2 u).transOffset = (stsAt sts u).transOffset ∧
         (stsAt sts2 u).outgoing = (stsAt sts u).outgoing) := by
      intro u hu
      have e2 : stsAt sts2 u = stsAt pr.2 u := by
        rw [hsts2def]; unfold stsAt; exact getD_lmod_ne _ _ _ _ _ hu
      have e1 : stsAt sts1 u = stsAt sts u := by
        rw [hsts1def]; unfold stsAt; exact getD_lmod_ne _ _ _ _ _ hu
      rw [e2]
      have hf := hm.2.2.1 u
      have ho := hm.2.2.2.1 u hu
      rw [e1] at hf ho
      exact ⟨hf.1, hf.2.1, hf.2.2, ho⟩
    refine ⟨hrec.1.trans hl3, ?_, ?_, ?_⟩
    · rw [hrec.2.1, hpr1]; simp; omega
    · intro u hu
      have hu' : u < s0 + 1 ∨ (s0 + 1) + rest.length ≤ u := by simp at hu; omega
      have hr := hrec.2.2.1 u hu'
      have hu0 : u ≠ s0 := by simp at hu; omega
      have hb := houtne u hu0
      exact ⟨hr.1.trans hb.1, hr.2.1.trans hb.2.1, hr.2.2.1.trans hb.2.2.1,
        hr.2.2.2.trans hb.2.2.2⟩
    · intro i hi
      cases i with
      | zero =>
        have hr := hrec.2.2.1 s0 (Or.inl (Nat.lt_succ_self s0))
        have hs0' : s0 < pr.2.length := by rw [hl2]; exact hs0
        have hs0'' : s0 < sts1.length := by rw [hl1]; exact hs0
        have e2 : stsAt sts2 s0
            = { stsAt pr.2 s0 with nTransitions := pr.1, transOffset := tiCum } := by
          rw [hsts2def]; exact stsAt_lmod_self _ _ _ hs0'
        have e1 : stsAt sts1 s0 = { stsAt sts s0 with name := ms.name } := by
          rw [hsts1def]; exact stsAt_lmod_self _ _ _ hs0
        have hf := hm.2.2.1 s0
        have hperm := hm.2.2.2.2 hs0''
        rw [e1] at hf
        refine ⟨?_, ?_, ?_, ?_⟩
        · simp only [Nat.add_zero, List.getD_cons_zero]
          rw [hr.1, e2]
          simpa using hf.1
        · simp only [Nat.add_zero, List.getD_cons_zero]
          rw [hr.2.1, e2]
          simpa using hpr1
        · simp only [Nat.add_zero, List.take_zero, List.map_nil, List.sum_nil]
          rw [hr.2.2.1, e2]
        · simp only [Nat.add_zero, List.getD_cons_zero]
          have hout2 : (stsAt sts2 s0).outgoing = (stsAt pr.2 s0).outgoing := by rw [e2]
          rw [hr.2.2.2, hout2]
          refine hperm.trans ?_
          have hso : (stsAt sts1 s0).outgoing = (stsAt sts s0).outgoing := by rw [e1]
          rw [hso]
      | succ j =>
        have hj : j < rest.length := by simp only [List.length_cons] at hi; omega
        have hr := hrec.2.2.2 j hj
        have hidx : s0 + (j + 1) = (s0 + 1) + j := by omega
        have hune : (s0 + 1) + j ≠ s0 := by omega
        have hb := houtne ((s0 + 1) + j) hune
        simp only [hidx, List.getD_cons_succ, List.take_succ_cons, List.map_cons, List.sum_cons]
        refine ⟨?_, ?_, ?_, ?_⟩
        · exact hr.1
        · exact hr.2.1
        · rw [hr.2.2.1, hpr1]; omega
        · refine hr.2.2.2.trans ?_
          rw [hb.2.2.2]

theorem stsAt_replicate (n u : ℕ) :
    stsAt (List.replicate n emptyEvalState) u = emptyEvalState := by
  unfold stsAt
  induction n generalizing u with
  | zero => simp
  | succ k ih =>
    cases u with
    | zero => simp [List.replicate]
    | succ v => simpa [List.replicate] using ih v

theorem ofMachine_state (m : Machine) (p : Option Params) :
    (EvaluatedMachine.ofMachine m p).state
      = (initStates (Tokenizer.ofAlphabet m.inputAlphabet)
          (Tokenizer.ofAlphabet m.outputAlphabet) p m.state 0 0
          (List.replicate m.nStates emptyEvalState)).1 := rfl

theorem ofMachine_nTransitions_def (m : Machine) (p : Option Params) :
    (EvaluatedMachine.ofMachine m p).nTransitions
      = (initStates (Tokenizer.ofAlphabet m.inputAlphabet)
          (Tokenizer.ofAlphabet m.outputAlphabet) p m.state 0 0
          (List.replicate m.nStates emptyEvalState)).2 := rfl

theorem ofMachine_nStates (m : Machine) (p : Option Params) :
    (EvaluatedMachine.ofMachine m p).nStates = m.nStates := by
  have heff := initStates_effect (Tokenizer.ofAlphabet m.inputAlphabet)
    (Tokenizer.ofAlphabet m.outputAlphabet) p m.state 0 0
    (List.replicate m.nStates emptyEvalState) (by simp [Machine.nStates])
  unfold EvaluatedMachine.nStates
  rw [ofMachine_state, heff.1]
  simp

theorem ofMachine_nTransitions (m : Machine) (p : Option Params) :
    (EvaluatedMachine.ofMachine m p).nTransitions
      = (m.state.map (fun ms => ms.trans.length)).sum := by
  have heff := initStates_effect (Tokenizer.ofAlphabet m.inputAlphabet)
    (Tokenizer.ofAlphabet m.outputAlphabet) p m.state 0 0
    (List.replicate m.nStates emptyEvalState) (by simp [Machine.nStates])
  rw [ofMachine_nTransitions_def, heff.2.1]
  simp

theorem ofMachine_charAt (m : Machine) (p : Option Params) (s : ℕ) (hs : s < m.nStates) :
    ((EvaluatedMachine.ofMachine m p).stateAt s).name = (m.stateAt s).name ∧
    ((EvaluatedMachine.ofMachine m p).stateAt s).nTransitions = (m.stateAt s).trans.length ∧
    ((EvaluatedMachine.ofMachine m p).stateAt s).transOffset
      = ((m.state.take s).map (fun ms => ms.trans.length)).sum ∧
    (flatTrans ((EvaluatedMachine.ofMachine m p).stateAt s).outgoing).Perm
      ((List.enumFrom 0 (m.stateAt s).trans).map
        (fun q => tokTrans (Tokenizer.ofAlphabet m.inputAlphabet)
          (Tokenizer.ofAlphabet m.outputAlphabet) p q.1 q.2)) := by
  have heff := initStates_effect (Tokenizer.ofAlphabet m.inputAlphabet)
    (Tokenizer.ofAlphabet m.outputAlphabet) p m.state 0 0
    (List.replicate m.nStates emptyEvalState) (by simp [Machine.nStates])
  have hs' : s < m.state.length := hs
  have hp := heff.2.2.2 s hs'
  simp only [Nat.zero_add] at hp
  have hperm := hp.2.2.2
  rw [stsAt_replicate] at hperm
  simp only [emptyEvalState, flatTrans_nil, List.append_nil] at hperm
  exact ⟨hp.1, hp.2.1, hp.2.2.1, hperm⟩

/-! ## Tokenizer lemmas -/

theorem mem_addFirstSeen (acc : List String) (y x : String) :
    x ∈ addFirstSeen acc y ↔ x ∈ acc ∨ x = y := by
  unfold addFirstSeen
  split
  · rename_i hy
    constructor
    · exact Or.inl
    · intro h
      rcases h with h | h
      · exact h
      · exact h ▸ hy
  · simp [List.mem_append]

theorem mem_foldl_addFirstSeen (l : List String) : ∀ (acc : List String) (x : String),
    x ∈ l.foldl addFirstSeen acc ↔ x ∈ acc ∨ x ∈ l := by
  induction l with
  | nil => simp
  | cons y rest ih =>
    intro acc x
    rw [List.foldl_cons, ih, mem_addFirstSeen, List.mem_cons]
    tauto

theorem mem_inputAlphabet (m : Machine) (s : ℕ) (t : MachineTransition)
    (hs : s < m.nStates) (ht : t ∈ (m.stateAt s).trans) (hne : t.inp ≠ "") :
    t.inp ∈ m.inputAlphabet := by
  unfold Machine.inputAlphabet
  rw [mem_foldl_addFirstSeen]
  right
  rw [List.mem_filter]
  refine ⟨?_, by simpa using hne⟩
  rw [List.mem_flatMap]
  refine ⟨m.stateAt s, ?_, by simpa using ⟨t, ht, rfl⟩⟩
  unfold Machine.stateAt
  rw [List.getD_eq_getElem _ _ hs]
  exact List.getElem_mem hs

theorem mem_outputAlphabet (m : Machine) (s : ℕ) (t : MachineTransition)
    (hs : s < m.nStates) (ht : t ∈ (m.stateAt s).trans) (hne : t.out ≠ "") :
    t.out ∈ m.outputAlphabet := by
  unfold Machine.outputAlphabet
  rw [mem_foldl_addFirstSeen]
  right
  rw [List.mem_filter]
  refine ⟨?_, by simpa using hne⟩
  rw [List.mem_flatMap]
  refine ⟨m.stateAt s, ?_, by simpa using ⟨t, ht, rfl⟩⟩
  unfold Machine.stateAt
  rw [List.getD_eq_getElem _ _ hs]
  exact List.getElem_mem hs

theorem sym2tok_roundtrip (alph : List String) (x : String) (hx : x ≠ "" → x ∈ alph) :
    (Tokenizer.ofAlphabet alph).tok2sym.getD ((Tokenizer.ofAlphabet alph).sym2tok x) ""
      = x := by
  unfold Tokenizer.ofAlphabet Tokenizer.sym2tok
  by_cases hxe : x = ""
  · subst hxe
    simp
  · have hmem : x ∈ "" :: alph := List.mem_cons_of_mem _ (hx hxe)
    have hlt : List.indexOf x ("" :: alph) < ("" :: alph).length :=
      List.indexOf_lt_length.mpr hmem
    rw [List.getD_eq_getElem _ _ hlt]
    exact List.getElem_indexOf hlt

/-! ## explicitMachine structure -/

theorem ofMachine_inputTokenizer (m : Machine) (p : Option Params) :
    (EvaluatedMachine.ofMachine m p).inputTokenizer
      = Tokenizer.ofAlphabet m.inputAlphabet := rfl

theorem ofMachine_outputTokenizer (m : Machine) (p : Option Params) :
    (EvaluatedMachine.ofMachine m p).outputTokenizer
      = Tokenizer.ofAlphabet m.outputAlphabet := rfl

theorem explicit_trans_as_map (i2s o2s : List String) (iost : InOutTransMap) :
    (iost.flatMap fun iP =>
      iP.2.flatMap fun oP =>
        oP.2.map fun dP =>
          (⟨i2s.getD iP.1 "", o2s.getD oP.1 "", dP.1,
            WeightExpr.lit (Real.exp dP.2.logWeight)⟩ : MachineTransition))
      = (flatTrans iost).map
          (fun q => ⟨i2s.getD q.1 "", o2s.getD q.2.1 "", q.2.2.1,
            WeightExpr.lit (Real.exp q.2.2.2.logWeight)⟩) := by
  simp only [flatTrans, flatOut, List.map_flatMap, List.map_map]
  rfl

theorem explicitMachine_nStates (em : EvaluatedMachine) :
    em.explicitMachine.nStates = em.nStates := by
  simp [EvaluatedMachine.explicitMachine, Machine.nStates, EvaluatedMachine.nStates]

theorem explicitMachine_stateAt (em : EvaluatedMachine) (s : ℕ) :
    ((em.explicitMachine.stateAt s).name = (em.stateAt s).name) ∧
    ((em.explicitMachine.stateAt s).trans
      = (flatTrans (em.stateAt s).outgoing).map
          (fun q => ⟨em.inputTokenizer.tok2sym.getD q.1 "",
            em.outputTokenizer.tok2sym.getD q.2.1 "", q.2.2.1,
            WeightExpr.lit (Real.exp q.2.2.2.logWeight)⟩)) := by
  rcases Nat.lt_or_ge s em.state.length with hlt | hge
  · have hlt' : s < (em.state.map (fun ems =>
        ({ name := ems.name
           trans := ems.outgoing.flatMap fun iP =>
             iP.2.flatMap fun oP =>
               oP.2.map fun dP =>
                 ⟨em.inputTokenizer.tok2sym.getD iP.1 "",
                  em.outputTokenizer.tok2sym.getD oP.1 "",
                  dP.1,
                  WeightExpr.lit (Real.exp dP.2.logWeight)⟩ } : MachineState))).length := by
      simpa using hlt
    unfold EvaluatedMachine.explicitMachine Machine.stateAt EvaluatedMachine.stateAt
    rw [List.getD_eq_getElem _ _ hlt', List.getElem_map, List.getD_eq_getElem _ _ hlt]
    exact ⟨rfl, explicit_trans_as_map _ _ _⟩
  · have hge' : (em.state.map (fun ems =>
        ({ name := ems.name
           trans := ems.outgoing.flatMap fun iP =>
             iP.2.flatMap fun oP =>
               oP.2.map fun dP =>
                 ⟨em.inputTokenizer.tok2sym.getD iP.1 "",
                  em.outputTokenizer.tok2sym.getD oP.1 "",
                  dP.1,
                  WeightExpr.lit (Real.exp dP.2.logWeight)⟩ } : MachineState))).length ≤ s := by
      simpa using hge
    unfold EvaluatedMachine.explicitMachine Machine.stateAt EvaluatedMachine.stateAt
    rw [List.getD_eq_default _ _ hge', List.getD_eq_default _ _ hge]
    exact ⟨rfl, rfl⟩

/-! ## Closure-loop lemmas -/

theorem closureRow_mat (n src : ℕ) (es : List (ℕ × EvalTrans)) :
    ∀ (st : ClosureRow n) (s d : Fin n),
    ((es.foldl (closureStep n src) st).mat s d)
      = if s.val = src then
          st.mat s d - ((es.filter (fun e => e.1 = d.val)).map
            (fun e => Real.exp e.2.logWeight)).sum
        else st.mat s d := by
  induction es with
  | nil => intro st s d; simp
  | cons e rest ih =>
    intro st s d
    rw [List.foldl_cons, ih]
    by_cases hs : s.val = src
    · rw [if_pos hs, if_pos hs]
      by_cases hd : e.1 = d.val
      · rw [List.filter_cons_of_pos (by simpa using hd)]
        simp only [List.map_cons, List.sum_cons]
        unfold closureStep
        dsimp only
        rw [if_pos ⟨hs, hd.symm⟩, sub_sub]
      · rw [List.filter_cons_of_neg (by simpa using hd)]
        unfold closureStep
        dsimp only
        rw [if_neg (fun hc => hd hc.2.symm)]
    · rw [if_neg hs, if_neg hs]
      unfold closureStep
      dsimp only
      rw [if_neg (fun hc => hs hc.1)]

theorem closureRow_pExit (n src : ℕ) (es : List (ℕ × EvalTrans)) :
    ∀ (st : ClosureRow n),
    (es.foldl (closureStep n src) st).pExit
      = st.pExit + (es.map (fun e => Real.exp e.2.logWeight)).sum := by
  induction es with
  | nil => intro st; simp
  | cons e rest ih =>
    intro st
    rw [List.foldl_cons, ih]
    simp [closureStep]
    ring

theorem closureRow_warns_extend (n src : ℕ) (es : List (ℕ × EvalTrans)) :
    ∀ (st : ClosureRow n),
    ∃ extra, (es.foldl (closureStep n src) st).warns = st.warns ++ extra := by
  induction es with
  | nil => intro st; exact ⟨[], by simp⟩
  | cons e rest ih =>
    intro st
    obtain ⟨extra, hx⟩ := ih (closureStep n src st e)
    rw [List.foldl_cons, hx]
    unfold closureStep
    dsimp only
    split
    · exact ⟨[(src, st.pExit + Real.exp e.2.logWeight)] ++ extra, by simp⟩
    · exact ⟨extra, rfl⟩

theorem closureStep_warns (n src : ℕ) (st : ClosureRow n) (e : ℕ × EvalTrans) :
    (closureStep n src st e).warns
      = if SuspiciouslyLargeProbabilityWarningThreshold
            < st.pExit + Real.exp e.2.logWeight then
          st.warns ++ [(src, st.pExit + Real.exp e.2.logWeight)]
        else st.warns := rfl

theorem closureRow_warns_ne (n src : ℕ) (es : List (ℕ × EvalTrans))
    (A : Matrix (Fin n) (Fin n) ℝ) (ws : List (ℕ × ℝ))
    (h : SuspiciouslyLargeProbabilityWarningThreshold
      < (es.map (fun e => Real.exp e.2.logWeight)).sum) :
    (es.foldl (closureStep n src) ⟨A, 0, ws⟩).warns ≠ [] := by
  induction es using List.reverseRecOn with
  | nil =>
    unfold SuspiciouslyLargeProbabilityWarningThreshold at h
    norm_num at h
  | append_singleton l e _ =>
    rw [List.foldl_append]
    have hcond : SuspiciouslyLargeProbabilityWarningThreshold
        < (l.foldl (closureStep n src) ⟨A, 0, ws⟩).pExit + Real.exp e.2.logWeight := by
      rw [closureRow_pExit]
      dsimp only
      rw [List.map_append, List.sum_append] at h
      simp only [List.map_cons, List.map_nil, List.sum_cons, List.sum_nil] at h
      linarith
    show (closureStep n src (List.foldl (closureStep n src) ⟨A, 0, ws⟩ l) e).warns ≠ []
    rw [closureStep_warns, if_pos hcond]
    simp

theorem closureSrcStep_fst (em : EvaluatedMachine)
    (acc : Matrix (Fin em.nStates) (Fin em.nStates) ℝ × List (ℕ × ℝ)) (src : ℕ) :
    (closureSrcStep em acc src).1
      = ((em.nullEntriesAt src).foldl (closureStep em.nStates src)
          ⟨fun s d => if s.val = src ∧ d.val = src then 1 else acc.1 s d, 0, acc.2⟩).mat :=
  rfl

theorem closureSrcStep_snd (em : EvaluatedMachine)
    (acc : Matrix (Fin em.nStates) (Fin em.nStates) ℝ × List (ℕ × ℝ)) (src : ℕ) :
    (closureSrcStep em acc src).2
      = ((em.nullEntriesAt src).foldl (closureStep em.nStates src)
          ⟨fun s d => if s.val = src ∧ d.val = src then 1 else acc.1 s d, 0, acc.2⟩).warns :=
  rfl

theorem closureFold_mat (em : EvaluatedMachine) (l : List ℕ) :
    ∀ (acc : Matrix (Fin em.nStates) (Fin em.nStates) ℝ × List (ℕ × ℝ)),
    l.Nodup →
    (∀ (s d : Fin em.nStates), s.val ∈ l → acc.1 s d = 0) →
    ∀ (s d : Fin em.nStates),
    ((l.foldl (closureSrcStep em) acc).1 s d)
      = if s.val ∈ l then
          (if s.val = d.val then (1:ℝ) else 0) - em.nullTransWeight s.val d.val
        else acc.1 s d := by
  induction l with
  | nil => intro acc _ _ s d; simp
  | cons src rest ih =>
    intro acc hnd hacc s d
    rw [List.foldl_cons]
    have hmat' : ∀ (s d : Fin em.nStates), (closureSrcStep em acc src).1 s d
        = if s.val = src then
            (if s.val = d.val then (1:ℝ) else 0) - em.nullTransWeight s.val d.val
          else acc.1 s d := by
      intro s d
      rw [closureSrcStep_fst, closureRow_mat]
      by_cases hs : s.val = src
      · have hz : acc.1 s d = 0 := hacc s d (by simp [hs])
        by_cases hd : d.val = src
        · have hsd : s.val = d.val := by rw [hs, hd]
          simp only [hs, if_true, hd, and_self, if_pos, hsd,
            EvaluatedMachine.nullTransWeight]
        · have hsd : ¬ (s.val = d.val) := by rw [hs]; exact fun hh => hd hh.symm
          simp only [hs, if_true, hd, and_true, true_and, if_neg, not_false_iff, hz,
            hsd, if_false, EvaluatedMachine.nullTransWeight]
          rw [if_neg (fun hh => hd hh.symm), zero_sub]
      · simp only [hs, if_false, false_and, if_neg, not_false_iff]
    have hnd' : rest.Nodup := (List.nodup_cons.mp hnd).2
    have hsrc : src ∉ rest := (List.nodup_cons.mp hnd).1
    have hacc' : ∀ (s d : Fin em.nStates), s.val ∈ rest
        → (closureSrcStep em acc src).1 s d = 0 := by
      intro s d hmem
      rw [hmat']
      have hne : s.val ≠ src := fun hh => hsrc (hh ▸ hmem)
      rw [if_neg hne]
      exact hacc s d (List.mem_cons_of_mem _ hmem)
    rw [ih (closureSrcStep em acc src) hnd' hacc' s d]
    by_cases hsl : s.val ∈ rest
    · simp [hsl, List.mem_cons]
    · by_cases hss : s.val = src
      · simp [hsl, hss, hmat']
      · simp [hsl, hss, hmat']

theorem closureLoop_fst (em : EvaluatedMachine) (s d : Fin em.nStates) :
    (em.closureLoop).1 s d
      = (if s.val = d.val then (1:ℝ) else 0) - em.nullTransWeight s.val d.val := by
  unfold EvaluatedMachine.closureLoop
  rw [closureFold_mat em (List.range em.nStates) (0, []) (List.nodup_range _)
    (fun s d _ => rfl) s d]
  simp [List.mem_range, s.isLt]

theorem closureLoop_fst_matrix (em : EvaluatedMachine) :
    (em.closureLoop).1 = (1 : Matrix (Fin em.nStates) (Fin em.nStates) ℝ)
      - em.nullTransMat := by
  ext s d
  rw [closureLoop_fst]
  simp [Matrix.sub_apply, Matrix.one_apply, EvaluatedMachine.nullTransMat, Fin.val_eq_val]

theorem closureFold_warns_mono (em : EvaluatedMachine) (l : List ℕ) :
    ∀ (acc : Matrix (Fin em.nStates) (Fin em.nStates) ℝ × List (ℕ × ℝ)),
    ∃ extra, (l.foldl (closureSrcStep em) acc).2 = acc.2 ++ extra := by
  induction l with
  | nil => intro acc; exact ⟨[], by simp⟩
  | cons src rest ih =>
    intro acc
    obtain ⟨e2, h2⟩ := ih (closureSrcStep em acc src)
    obtain ⟨e1, h1⟩ := closureRow_warns_extend em.nStates src (em.nullEntriesAt src)
      ⟨fun s d => if s.val = src ∧ d.val = src then 1 else acc.1 s d, 0, acc.2⟩
    rw [List.foldl_cons, h2, closureSrcStep_snd, h1]
    exact ⟨e1 ++ e2, by simp⟩

theorem closureFold_warns_ne (em : EvaluatedMachine) (l : List ℕ) :
    ∀ (acc : Matrix (Fin em.nStates) (Fin em.nStates) ℝ × List (ℕ × ℝ)) (src : ℕ),
    src ∈ l →
    SuspiciouslyLargeProbabilityWarningThreshold
      < ((em.nullEntriesAt src).map (fun e => Real.exp e.2.logWeight)).sum →
    (l.foldl (closureSrcStep em) acc).2 ≠ [] := by
  induction l with
  | nil => intro acc src hmem _; exact absurd hmem (List.not_mem_nil src)
  | cons src0 rest ih =>
    intro acc src hmem hp
    rw [List.foldl_cons]
    rcases List.mem_cons.mp hmem with heq | hmem'
    · subst heq
      have hne : (closureSrcStep em acc src).2 ≠ [] := by
        rw [closureSrcStep_snd]
        exact closureRow_warns_ne em.nStates src (em.nullEntriesAt src) _ acc.2 hp
      obtain ⟨extra, hx⟩ := closureFold_warns_mono em rest (closureSrcStep em acc src)
      rw [hx]
      intro hcon
      exact hne (List.append_eq_nil.mp hcon).1
    · exact ih (closureSrcStep em acc src0) src hmem' hp

theorem sumInTrans_eq (em : EvaluatedMachine) :
    em.sumInTrans
      = ((em.closureLoop).2,
         if (em.closureLoop).1.det = 0 then Except.error MBError.NonConvergent
         else Except.ok (fun s d => Real.log ((em.closureLoop).1⁻¹ s d))) := rfl

/-! ## Geometric series of matrices and walk weights -/

theorem geom_hasSum_inverse {n : ℕ} (N G : Matrix (Fin n) (Fin n) ℝ)
    (h : HasSum (fun k => N ^ k) G) :
    ((1 - N) * G = 1) ∧ (G * (1 - N) = 1) ∧ ((1 - N)⁻¹ = G) ∧ (1 - N).det ≠ 0 := by
  have h1 : HasSum (fun k => N ^ (k + 1)) (G - 1) := by
    rw [hasSum_nat_add_iff 1]
    simpa using h
  have h2 : HasSum (fun k => N ^ (k + 1)) (N * G) := by
    simpa [pow_succ'] using h.mul_left N
  have h3 : HasSum (fun k => N ^ (k + 1)) (G * N) := by
    simpa [pow_succ] using h.mul_right N
  have e1 : N * G = G - 1 := h2.unique h1
  have e2 : G * N = G - 1 := h3.unique h1
  have m1 : (1 - N) * G = 1 := by rw [sub_mul, one_mul, e1, sub_sub_cancel]
  have m2 : G * (1 - N) = 1 := by rw [mul_sub, mul_one, e2, sub_sub_cancel]
  have hdet : (1 - N).det ≠ 0 := by
    have hd := Matrix.det_mul (1 - N) G
    rw [m1, Matrix.det_one] at hd
    exact left_ne_zero_of_mul_eq_one hd.symm
  exact ⟨m1, m2, Matrix.inv_eq_right_inv m1, hdet⟩

theorem pow_entry_nonneg {n : ℕ} (N : Matrix (Fin n) (Fin n) ℝ)
    (hN : ∀ s d, 0 ≤ N s d) : ∀ (k : ℕ) (s d : Fin n), 0 ≤ (N ^ k) s d := by
  intro k
  induction k with
  | zero =>
    intro s d
    rw [pow_zero, Matrix.one_apply]
    split <;> norm_num
  | succ k ih =>
    intro s d
    rw [pow_succ', Matrix.mul_apply]
    exact Finset.sum_nonneg fun m _ => mul_nonneg (hN s m) (ih m d)

theorem hasSum_matrix_apply {n : ℕ} (f : ℕ → Matrix (Fin n) (Fin n) ℝ)
    (G : Matrix (Fin n) (Fin n) ℝ) (h : HasSum f G) (s d : Fin n) :
    HasSum (fun k => f k s d) (G s d) := by
  have h1 := Pi.hasSum.mp h s
  exact Pi.hasSum.mp h1 d

theorem geom_diag_ge_one {n : ℕ} (N G : Matrix (Fin n) (Fin n) ℝ)
    (hN : ∀ s d, 0 ≤ N s d) (h : HasSum (fun k => N ^ k) G) (s : Fin n) :
    1 ≤ G s s := by
  have he := hasSum_matrix_apply _ _ h s s
  calc (1:ℝ) = (N ^ 0) s s := by rw [pow_zero, Matrix.one_apply_eq]
  _ ≤ G s s := le_hasSum he 0 (fun j _ => pow_entry_nonneg N hN j s s)

theorem inv_diag_one_of_zero_row {n : ℕ} (N : Matrix (Fin n) (Fin n) ℝ) (s : Fin n)
    (hrow : ∀ d, N s d = 0) (hdet : (1 - N).det ≠ 0) : (1 - N)⁻¹ s s = 1 := by
  have hinv : (1 - N) * (1 - N)⁻¹ = 1 :=
    Matrix.mul_nonsing_inv _ (isUnit_iff_ne_zero.mpr hdet)
  have h2 : ((1 - N) * (1 - N)⁻¹) s s = 1 := by rw [hinv, Matrix.one_apply_eq]
  rw [Matrix.mul_apply] at h2
  have h3 : ∀ k, (1 - N) s k * (1 - N)⁻¹ k s
      = (if s = k then 1 else 0) * (1 - N)⁻¹ k s := by
    intro k
    congr 1
    simp [Matrix.sub_apply, Matrix.one_apply, hrow]
  rw [Finset.sum_congr rfl (fun k _ => h3 k)] at h2
  simpa [ite_mul, one_mul, zero_mul, Finset.sum_ite_eq] using h2

theorem chainProd_cons {n : ℕ} (N : Matrix (Fin n) (Fin n) ℝ) (x y : Fin n)
    (l : List (Fin n)) : chainProd N x (y :: l) = N x y * chainProd N y l := rfl

theorem pow_apply_walkWeight {n : ℕ} (N : Matrix (Fin n) (Fin n) ℝ) :
    ∀ (k : ℕ) (s d : Fin n), (N ^ k) s d = walkWeight N k s d := by
  intro k
  induction k with
  | zero =>
    intro s d
    unfold walkWeight
    rw [pow_zero]
    rw [Fintype.sum_unique]
    simp [List.ofFn_zero, chainProd, Matrix.one_apply]
  | succ k ih =>
    intro s d
    have hterm : ∀ m : Fin n,
        (∑ w : Fin k → Fin n,
          if (List.ofFn (Fin.cons m w : Fin (k+1) → Fin n)).getLastD s = d
          then chainProd N s (List.ofFn (Fin.cons m w : Fin (k+1) → Fin n)) else 0)
        = N s m * (N ^ k) m d := by
      intro m
      have hstep : ∀ w : Fin k → Fin n,
          (if (List.ofFn (Fin.cons m w : Fin (k+1) → Fin n)).getLastD s = d
           then chainProd N s (List.ofFn (Fin.cons m w : Fin (k+1) → Fin n)) else 0)
          = N s m * (if (List.ofFn w).getLastD m = d
              then chainProd N m (List.ofFn w) else 0) := by
        intro w
        have hofn : List.ofFn (Fin.cons m w : Fin (k+1) → Fin n) = m :: List.ofFn w := by
          rw [List.ofFn_succ]
          simp [Fin.cons_zero, Fin.cons_succ]
        rw [hofn, List.getLastD_cons, chainProd_cons, mul_ite, mul_zero]
      rw [Finset.sum_congr rfl (fun w _ => hstep w), ← Finset.mul_sum]
      rw [show (∑ w : Fin k → Fin n,
          if (List.ofFn w).getLastD m = d then chainProd N m (List.ofFn w) else 0)
        = walkWeight N k m d from rfl]
      rw [← ih m d]
    rw [pow_succ', Matrix.mul_apply]
    unfold walkWeight
    rw [← Fintype.sum_equiv (Fin.consEquiv (fun _ : Fin (k+1) => Fin n))
      (fun p => if (List.ofFn (Fin.cons p.1 p.2 : Fin (k+1) → Fin n)).getLastD s = d
        then chainProd N s (List.ofFn (Fin.cons p.1 p.2 : Fin (k+1) → Fin n)) else 0)
      (fun v => if (List.ofFn v).getLastD s = d then chainProd N s (List.ofFn v) else 0)
      (fun p => rfl)]
    rw [Fintype.sum_prod_type]
    exact Finset.sum_congr rfl (fun m _ => (hterm m).symm)

/-! ## Association-list lemmas for Params.readJson -/

theorem alookup_cons {α : Type} (k k' : String) (v : α) (l : List (String × α)) :
    alookup k ((k', v) :: l) = if k = k' then some v else alookup k l := rfl

theorem alookup_assocSet_self (l : List (String × ℝ)) (k : String) (v : ℝ) :
    alookup k (assocSet l k v) = some v := by
  induction l with
  | nil => simp [assocSet, alookup_cons]
  | cons p rest ih =>
    obtain ⟨k', v'⟩ := p
    unfold assocSet
    split
    · rw [alookup_cons, if_pos rfl]
    · split
      · rw [alookup_cons, if_pos rfl]
      · rename_i h1 h2
        rw [alookup_cons, if_neg h2]
        exact ih

theorem alookup_assocSet_ne (l : List (String × ℝ)) (k k' : String) (v : ℝ)
    (h : k' ≠ k) : alookup k' (assocSet l k v) = alookup k' l := by
  induction l with
  | nil => simp [assocSet, alookup_cons, h]
  | cons p rest ih =>
    obtain ⟨k0, v0⟩ := p
    unfold assocSet
    split
    · rw [alookup_cons, if_neg h]
    · split
      · rename_i h1 h2
        subst h2
        rw [alookup_cons, alookup_cons, if_neg h, if_neg h]
      · rw [alookup_cons, alookup_cons]
        split
        · rfl
        · exact ih

theorem alookup_not_mem {α : Type} (l : List (String × α)) (k : String)
    (h : k ∉ l.map Prod.fst) : alookup k l = none := by
  induction l with
  | nil => rfl
  | cons p rest ih =>
    rw [List.map_cons, List.mem_cons] at h
    push_neg at h
    rw [show alookup k (p :: rest) = if k = p.1 then some p.2 else alookup k rest from rfl]
    rw [if_neg h.1]
    exact ih h.2

theorem alookup_fill (fields : List (String × Json)) :
    ∀ (acc : List (String × ℝ)) (k : String),
    (fields.map Prod.fst).Nodup →
    alookup k (fields.foldl (fun mp kv => assocSet mp kv.1 kv.2.numVal) acc)
      = (match alookup k fields with
         | some jv => some jv.numVal
         | none => alookup k acc) := by
  induction fields with
  | nil => intro acc k _; rfl
  | cons f rest ih =>
    intro acc k hnd
    obtain ⟨k0, j0⟩ := f
    rw [List.map_cons] at hnd
    have hk0 : k0 ∉ rest.map Prod.fst := (List.nodup_cons.mp hnd).1
    have hnd2 : (rest.map Prod.fst).Nodup := (List.nodup_cons.mp hnd).2
    rw [List.foldl_cons, ih _ k hnd2]
    by_cases hkk : k = k0
    · subst hkk
      have hr : alookup k rest = none := alookup_not_mem rest k hk0
      have hhead : alookup k ((k, j0) :: rest) = some j0 := by
        rw [alookup_cons, if_pos rfl]
      rw [hr, hhead]
      exact alookup_assocSet_self acc k j0.numVal
    · have hcons : alookup k ((k0, j0) :: rest) = alookup k rest := by
        rw [alookup_cons, if_neg hkk]
      rw [hcons]
      cases hrest : alookup k rest with
      | some jv => rfl
      | none => exact alookup_assocSet_ne acc k0 k j0.numVal hkk

/-! ## enumFrom membership lemmas -/

theorem snd_mem_of_mem_enumFrom {α : Type} (l : List α) :
    ∀ (n : ℕ) (q : ℕ × α), q ∈ List.enumFrom n l → q.2 ∈ l := by
  induction l with
  | nil => intro n q h; simp [List.enumFrom] at h
  | cons x rest ih =>
    intro n q h
    simp only [List.enumFrom] at h
    rcases List.mem_cons.mp h with heq | hmem
    · subst heq; exact List.mem_cons_self _ _
    · exact List.mem_cons_of_mem _ (ih (n + 1) q hmem)

theorem getD_mem_enumFrom {α : Type} (l : List α) (k : ℕ) (d : α) (hk : k < l.length) :
    (k, l.getD k d) ∈ List.enumFrom 0 l := by
  rw [List.mk_mem_enumFrom_iff_le_and_getElem?_sub]
  refine ⟨Nat.zero_le k, ?_⟩
  rw [Nat.sub_zero, List.getElem?_eq_getElem hk, List.getD_eq_getElem _ _ hk]

/-! ## The claims -/

/-- C9: for every BaseCallingMachine, the state-index functions satisfy
exactly `kmerEmit (kmer, component) = 1 + component * nKmers + kmer`,
`kmerEnd (kmer) = 1 + components * nKmers + kmer`, and
`kmerStart (kmer) = 1 + (components + 1) * nKmers + kmer`. -/
theorem baseCalling_state_indexing (bcm : BaseCallingMachine) (kmer component : ℕ) :
    bcm.kmerEmit kmer component = 1 + component * bcm.nKmers + kmer ∧
    bcm.kmerEnd kmer = 1 + bcm.components * bcm.nKmers + kmer ∧
    bcm.kmerStart kmer = 1 + (bcm.components + 1) * bcm.nKmers + kmer :=
  ⟨rfl, rfl, rfl⟩

/-- C2: constructing an EvaluatedMachine checks that the machine is
advancing and fails fatally when it is not, producing no object: the
construction succeeds exactly when `isAdvancingMachine` holds, fails with
NotAdvancing exactly when it does not, and any object produced is the
fully initialised one. -/
theorem evaluate_requires_advancing (m : Machine) (p : Option Params) :
    ((evaluate m p).isOk = m.isAdvancingMachine) ∧
    (evaluate m p = Except.error MBError.NotAdvancing ↔ m.isAdvancingMachine = false) ∧
    (∀ em, evaluate m p = Except.ok em →
      m.isAdvancingMachine = true ∧ em = EvaluatedMachine.ofMachine m p) := by
  unfold evaluate
  cases h : m.isAdvancingMachine with
  | true =>
    rw [if_pos rfl]
    refine ⟨rfl, by simp, ?_⟩
    intro em hem
    exact ⟨rfl, (Except.ok.inj hem).symm⟩
  | false =>
    rw [if_neg Bool.false_ne_true]
    refine ⟨rfl, by simp, ?_⟩
    intro em hem
    exact absurd hem (by simp)

/-- C10: `Params::readJson` validates before clearing: on a schema
violation the Params object's bindings are untouched and the error is
SchemaViolation; on success the resulting map holds exactly the JSON
object's key/value pairs and nothing of the previous state. -/
theorem params_readJson_atomic (p : Params) (j : Json) :
    (validateParams j = false → p.readJson j = (p, some MBError.SchemaViolation)) ∧
    (∀ fields, j = Json.obj fields → validateParams j = true →
      (fields.map Prod.fst).Nodup →
      ∃ q, p.readJson j = (q, none) ∧
        ∀ k, alookup k q.param
          = (match alookup k fields with
             | some jv => some jv.numVal
             | none => none)) := by
  constructor
  · intro hv
    unfold Params.readJson
    rw [if_neg (by rw [hv]; exact Bool.false_ne_true)]
  · intro fields hj hv _hnd
    subst hj
    refine ⟨⟨fields.foldl (fun mp kv => assocSet mp kv.1 kv.2.numVal) []⟩, ?_, ?_⟩
    · unfold Params.readJson
      rw [if_pos (by rw [hv])]
    · intro k
      have := alookup_fill fields [] k _hnd
      rw [this]
      cases alookup k fields with
      | some jv => rfl
      | none => rfl

/-- C3: for every transition `(s, in, out, dst, w)` of the source Machine,
the evaluated machine stores an outgoing record for it carrying
`logWeight = log (eval (w, params))` when a Params binding is supplied
and `logWeight = 0` when none is, keyed by the transition's tokens and
destination and bearing its per-state ordinal. -/
theorem evaluatedMachine_stores_logWeight (m : Machine) (p : Option Params) (s k : ℕ)
    (hs : s < m.nStates) (hk : k < (m.stateAt s).trans.length) :
    ((Tokenizer.ofAlphabet m.inputAlphabet).sym2tok
        ((m.stateAt s).trans.getD k ⟨"", "", 0, WeightExpr.lit 0⟩).inp,
     (Tokenizer.ofAlphabet m.outputAlphabet).sym2tok
        ((m.stateAt s).trans.getD k ⟨"", "", 0, WeightExpr.lit 0⟩).out,
     ((m.stateAt s).trans.getD k ⟨"", "", 0, WeightExpr.lit 0⟩).dest,
     (⟨(match p with
        | some pm => Real.log (WeightAlgebra.eval pm.defs
            ((m.stateAt s).trans.getD k ⟨"", "", 0, WeightExpr.lit 0⟩).weight)
        | none => 0), k⟩ : EvalTrans))
      ∈ flatTrans ((EvaluatedMachine.ofMachine m p).stateAt s).outgoing := by
  have hperm := (ofMachine_charAt m p s hs).2.2.2
  rw [hperm.mem_iff, List.mem_map]
  exact ⟨(k, (m.stateAt s).trans.getD k ⟨"", "", 0, WeightExpr.lit 0⟩),
    getD_mem_enumFrom _ k _ hk, rfl⟩

/-- Witness for C3 at a concrete machine with one parametrised transition. -/
theorem evaluatedMachine_stores_logWeight_witness :
    ((Tokenizer.ofAlphabet mC3.inputAlphabet).sym2tok
        ((mC3.stateAt 0).trans.getD 0 ⟨"", "", 0, WeightExpr.lit 0⟩).inp,
     (Tokenizer.ofAlphabet mC3.outputAlphabet).sym2tok
        ((mC3.stateAt 0).trans.getD 0 ⟨"", "", 0, WeightExpr.lit 0⟩).out,
     ((mC3.stateAt 0).trans.getD 0 ⟨"", "", 0, WeightExpr.lit 0⟩).dest,
     (⟨(match some pC3 with
        | some pm => Real.log (WeightAlgebra.eval pm.defs
            ((mC3.stateAt 0).trans.getD 0 ⟨"", "", 0, WeightExpr.lit 0⟩).weight)
        | none => 0), 0⟩ : EvalTrans))
      ∈ flatTrans ((EvaluatedMachine.ofMachine mC3 (some pC3)).stateAt 0).outgoing :=
  evaluatedMachine_stores_logWeight mC3 (some pC3) 0 0 (by decide) (by decide)

/-- C7: within each state the edge ordinals `transIndex` are assigned
`0, 1, ..., nTransitions(s) - 1` in the original emission order (the
k-th transition's stored record has `transIndex = k`), `transOffset(s)`
is the running prefix sum of the per-state transition counts, and the
machine-level `nTransitions` is their total. -/
theorem transIndex_dense_indexing (m : Machine) (p : Option Params) (s : ℕ)
    (hs : s < m.nStates) :
    (((EvaluatedMachine.ofMachine m p).stateAt s).nTransitions
      = (m.stateAt s).trans.length) ∧
    (((EvaluatedMachine.ofMachine m p).stateAt s).transOffset
      = ((m.state.take s).map (fun ms => ms.trans.length)).sum) ∧
    ((EvaluatedMachine.ofMachine m p).nTransitions
      = (m.state.map (fun ms => ms.trans.length)).sum) ∧
    (∀ k, k < (m.stateAt s).trans.length →
      ((Tokenizer.ofAlphabet m.inputAlphabet).sym2tok
          ((m.stateAt s).trans.getD k ⟨"", "", 0, WeightExpr.lit 0⟩).inp,
       (Tokenizer.ofAlphabet m.outputAlphabet).sym2tok
          ((m.stateAt s).trans.getD k ⟨"", "", 0, WeightExpr.lit 0⟩).out,
       ((m.stateAt s).trans.getD k ⟨"", "", 0, WeightExpr.lit 0⟩).dest,
       (⟨evalLogWeight p ((m.stateAt s).trans.getD k ⟨"", "", 0, WeightExpr.lit 0⟩), k⟩
         : EvalTrans))
        ∈ flatTrans ((EvaluatedMachine.ofMachine m p).stateAt s).outgoing) ∧
    (((flatTrans ((EvaluatedMachine.ofMachine m p).stateAt s).outgoing).map
        (fun e => e.2.2.2.transIndex)).Perm
      (List.range (m.stateAt s).trans.length)) := by
  obtain ⟨hname, hnt, hto, hperm⟩ := ofMachine_charAt m p s hs
  refine ⟨hnt, hto, ofMachine_nTransitions m p, ?_, ?_⟩
  · intro k hk
    rw [hperm.mem_iff, List.mem_map]
    exact ⟨(k, (m.stateAt s).trans.getD k ⟨"", "", 0, WeightExpr.lit 0⟩),
      getD_mem_enumFrom _ k _ hk, rfl⟩
  · refine (hperm.map (fun e => e.2.2.2.transIndex)).trans ?_
    rw [List.map_map]
    rw [show ((fun (e : ℕ × ℕ × ℕ × EvalTrans) => e.2.2.2.transIndex) ∘
        (fun (q : ℕ × MachineTransition) =>
          tokTrans (Tokenizer.ofAlphabet m.inputAlphabet)
            (Tokenizer.ofAlphabet m.outputAlphabet) p q.1 q.2))
      = Prod.fst from rfl]
    rw [List.enumFrom_map_fst, ← List.range_eq_range']

/-- Witness for C7 at a two-state machine, checking state 1. -/
theorem transIndex_dense_indexing_witness :
    (((EvaluatedMachine.ofMachine mC7 none).stateAt 1).nTransitions
      = (mC7.stateAt 1).trans.length) ∧
    (((EvaluatedMachine.ofMachine mC7 none).stateAt 1).transOffset
      = ((mC7.state.take 1).map (fun ms => ms.trans.length)).sum) ∧
    ((EvaluatedMachine.ofMachine mC7 none).nTransitions
      = (mC7.state.map (fun ms => ms.trans.length)).sum) ∧
    (∀ k, k < (mC7.stateAt 1).trans.length →
      ((Tokenizer.ofAlphabet mC7.inputAlphabet).sym2tok
          ((mC7.stateAt 1).trans.getD k ⟨"", "", 0, WeightExpr.lit 0⟩).inp,
       (Tokenizer.ofAlphabet mC7.outputAlphabet).sym2tok
          ((mC7.stateAt 1).trans.getD k ⟨"", "", 0, WeightExpr.lit 0⟩).out,
       ((mC7.stateAt 1).trans.getD k ⟨"", "", 0, WeightExpr.lit 0⟩).dest,
       (⟨evalLogWeight none ((mC7.stateAt 1).trans.getD k ⟨"", "", 0, WeightExpr.lit 0⟩), k⟩
         : EvalTrans))
        ∈ flatTrans ((EvaluatedMachine.ofMachine mC7 none).stateAt 1).outgoing) ∧
    (((flatTrans ((EvaluatedMachine.ofMachine mC7 none).stateAt 1).outgoing).map
        (fun e => e.2.2.2.transIndex)).Perm
      (List.range (mC7.stateAt 1).trans.length)) :=
  transIndex_dense_indexing mC7 none 1 (by decide)

/-- C1: `sumInTrans` builds exactly the matrix `M = I - N` of the spec
(diagonal `1` minus the summed `exp (logWeight)` of output-empty
self-loops, off-diagonal minus the summed output-empty weights), returns
the element-wise log of `M⁻¹`, and `N`-powers total the weights of the
output-empty walks, so that when the geometric series `I + N + N² + ...`
sums to `G` the returned value is the element-wise log of `G` — the log
of the total weight of all output-empty paths, the zero-length path
included. -/
theorem sumInTrans_is_log_of_inverse (em : EvaluatedMachine) :
    (∀ s d : Fin em.nStates, (em.closureLoop).1 s d
        = ((1 : Matrix (Fin em.nStates) (Fin em.nStates) ℝ) - em.nullTransMat) s d) ∧
    (∀ L, (em.sumInTrans).2 = Except.ok L → ∀ s d : Fin em.nStates,
        L s d = Real.log
          (((1 : Matrix (Fin em.nStates) (Fin em.nStates) ℝ) - em.nullTransMat)⁻¹ s d)) ∧
    (∀ (k : ℕ) (s d : Fin em.nStates),
        (em.nullTransMat ^ k) s d = walkWeight em.nullTransMat k s d) ∧
    (∀ G, HasSum (fun k => em.nullTransMat ^ k) G →
        (em.sumInTrans).2 = Except.ok (fun s d => Real.log (G s d))) := by
  refine ⟨?_, ?_, ?_, ?_⟩
  · intro s d
    rw [closureLoop_fst_matrix]
  · intro L hL s d
    rw [sumInTrans_eq] at hL
    dsimp only at hL
    by_cases hdet : ((em.closureLoop).1).det = 0
    · rw [if_pos hdet] at hL
      exact absurd hL (by simp)
    · rw [if_neg hdet] at hL
      have hLe := Except.ok.inj hL
      rw [← hLe, closureLoop_fst_matrix]
  · exact fun k s d => pow_apply_walkWeight em.nullTransMat k s d
  · intro G hG
    obtain ⟨m1, m2, hinv, hdet⟩ := geom_hasSum_inverse em.nullTransMat G hG
    rw [sumInTrans_eq]
    dsimp only
    rw [closureLoop_fst_matrix, if_neg hdet, hinv]

/-- C5: `sumInTrans` fails with NonConvergent, returning no value,
exactly when the matrix `M = I - N` is not invertible; and NonConvergent
is its only failure mode. -/
theorem sumInTrans_nonConvergent_iff_singular (em : EvaluatedMachine) :
    ((em.sumInTrans).2 = Except.error MBError.NonConvergent
      ↔ ¬ IsUnit ((1 : Matrix (Fin em.nStates) (Fin em.nStates) ℝ) - em.nullTransMat)) ∧
    (∀ e, (em.sumInTrans).2 = Except.error e → e = MBError.NonConvergent) := by
  rw [sumInTrans_eq]
  dsimp only
  rw [closureLoop_fst_matrix]
  constructor
  · by_cases hdet : ((1 : Matrix (Fin em.nStates) (Fin em.nStates) ℝ)
        - em.nullTransMat).det = 0
    · rw [if_pos hdet]
      constructor
      · intro _
        rw [Matrix.isUnit_iff_isUnit_det, isUnit_iff_ne_zero]
        intro hne
        exact hne hdet
      · intro _
        rfl
    · rw [if_neg hdet]
      constructor
      · intro h
        exact absurd h (by simp)
      · intro h
        exfalso
        apply h
        rw [Matrix.isUnit_iff_isUnit_det, isUnit_iff_ne_zero]
        exact hdet
  · intro e he
    by_cases hdet : ((1 : Matrix (Fin em.nStates) (Fin em.nStates) ℝ)
        - em.nullTransMat).det = 0
    · rw [if_pos hdet] at he
      exact (Except.error.inj he).symm
    · rw [if_neg hdet] at he
      exact absurd he (by simp)

/-- C6: when the summed probability of output-empty transitions leaving
some state exceeds the 1.01 threshold, `sumInTrans` emits a warning but
does not fail because of it: the warning list is non-empty and the
returned result is exactly the warning-free computation from the same
weights. -/
theorem sumInTrans_warning_does_not_change_result (em : EvaluatedMachine) (s : ℕ)
    (hs : s < em.nStates)
    (hp : SuspiciouslyLargeProbabilityWarningThreshold < em.pExitTotal s) :
    ((em.sumInTrans).1 ≠ []) ∧
    ((em.sumInTrans).2
      = if ((1 : Matrix (Fin em.nStates) (Fin em.nStates) ℝ) - em.nullTransMat).det = 0
        then Except.error MBError.NonConvergent
        else Except.ok (fun s d => Real.log
          (((1 : Matrix (Fin em.nStates) (Fin em.nStates) ℝ) - em.nullTransMat)⁻¹ s d))) := by
  constructor
  · rw [sumInTrans_eq]
    dsimp only
    exact closureFold_warns_ne em (List.range em.nStates) (0, []) s
      (List.mem_range.mpr hs) hp
  · rw [sumInTrans_eq]
    dsimp only
    rw [closureLoop_fst_matrix]

/-- Witness for C6 at a concrete machine whose single state has two
output-empty transitions of probability 1 each. -/
theorem sumInTrans_warning_witness :
    (((EvaluatedMachine.ofMachine mC6 none).sumInTrans).1 ≠ []) ∧
    (((EvaluatedMachine.ofMachine mC6 none).sumInTrans).2
      = if ((1 : Matrix (Fin (EvaluatedMachine.ofMachine mC6 none).nStates)
              (Fin (EvaluatedMachine.ofMachine mC6 none).nStates) ℝ)
            - (EvaluatedMachine.ofMachine mC6 none).nullTransMat).det = 0
        then Except.error MBError.NonConvergent
        else Except.ok (fun s d => Real.log
          (((1 : Matrix (Fin (EvaluatedMachine.ofMachine mC6 none).nStates)
              (Fin (EvaluatedMachine.ofMachine mC6 none).nStates) ℝ)
            - (EvaluatedMachine.ofMachine mC6 none).nullTransMat)⁻¹ s d))) :=
  sumInTrans_warning_does_not_change_result (EvaluatedMachine.ofMachine mC6 none) 0
    (by decide)
    (by
      have h1 : (EvaluatedMachine.ofMachine mC6 none).nullEntriesAt 0
          = [(0, ⟨0, 0⟩), (0, ⟨0, 1⟩)] := rfl
      unfold EvaluatedMachine.pExitTotal SuspiciouslyLargeProbabilityWarningThreshold
      rw [h1]
      norm_num [Real.exp_zero, List.sum_cons, List.sum_nil])

/-- C4 (amended): `explicitMachine` reconstructs a symbolic Machine with
the same number of states, the same state names, and each transition's
weight the literal `exp (logWeight)`; its per-state transitions are the
original emission-ordered transitions reordered by the token-sorted
adjacency-map iteration (a permutation), not by `transIndex`. -/
theorem explicitMachine_reconstruction_amended (m : Machine) (p : Option Params) :
    ((EvaluatedMachine.ofMachine m p).explicitMachine.nStates
      = (EvaluatedMachine.ofMachine m p).nStates) ∧
    (∀ s, ((EvaluatedMachine.ofMachine m p).explicitMachine.stateAt s).name
        = (m.stateAt s).name) ∧
    (∀ s, ((EvaluatedMachine.ofMachine m p).explicitMachine.stateAt s).trans.Perm
        ((m.stateAt s).trans.map (fun t =>
          (⟨t.inp, t.out, t.dest, WeightExpr.lit (Real.exp (evalLogWeight p t))⟩
            : MachineTransition)))) := by
  have hlen : (EvaluatedMachine.ofMachine m p).state.length = m.nStates :=
    ofMachine_nStates m p
  refine ⟨explicitMachine_nStates _, ?_, ?_⟩
  · intro s
    rcases Nat.lt_or_ge s m.nStates with hs | hs
    · rw [(explicitMachine_stateAt _ s).1, (ofMachine_charAt m p s hs).1]
    · have h1 : (EvaluatedMachine.ofMachine m p).stateAt s = emptyEvalState := by
        unfold EvaluatedMachine.stateAt
        rw [List.getD_eq_default _ _ (by omega)]
      rw [(explicitMachine_stateAt _ s).1, h1]
      unfold Machine.stateAt
      rw [List.getD_eq_default _ _ hs]
      rfl
  · intro s
    rcases Nat.lt_or_ge s m.nStates with hs | hs
    · rw [(explicitMachine_stateAt _ s).2, ofMachine_inputTokenizer,
        ofMachine_outputTokenizer]
      refine (((ofMachine_charAt m p s hs).2.2.2).map
        (fun q => (⟨(Tokenizer.ofAlphabet m.inputAlphabet).tok2sym.getD q.1 "",
          (Tokenizer.ofAlphabet m.outputAlphabet).tok2sym.getD q.2.1 "", q.2.2.1,
          WeightExpr.lit (Real.exp q.2.2.2.logWeight)⟩ : MachineTransition))).trans ?_
      rw [List.map_map]
      have hpt : ∀ q ∈ List.enumFrom 0 (m.stateAt s).trans,
          ((fun q => (⟨(Tokenizer.ofAlphabet m.inputAlphabet).tok2sym.getD q.1 "",
              (Tokenizer.ofAlphabet m.outputAlphabet).tok2sym.getD q.2.1 "", q.2.2.1,
              WeightExpr.lit (Real.exp q.2.2.2.logWeight)⟩ : MachineTransition)) ∘
            (fun (q : ℕ × MachineTransition) =>
              tokTrans (Tokenizer.ofAlphabet m.inputAlphabet)
                (Tokenizer.ofAlphabet m.outputAlphabet) p q.1 q.2)) q
          = ((fun t => (⟨t.inp, t.out, t.dest,
              WeightExpr.lit (Real.exp (evalLogWeight p t))⟩ : MachineTransition)) ∘
              Prod.snd) q := by
        intro q hq
        have hmem := snd_mem_of_mem_enumFrom _ 0 q hq
        have hi := sym2tok_roundtrip m.inputAlphabet q.2.inp
          (fun hne => mem_inputAlphabet m s q.2 hs hmem hne)
        have ho := sym2tok_roundtrip m.outputAlphabet q.2.out
          (fun hne => mem_outputAlphabet m s q.2 hs hmem hne)
        simp only [Function.comp, tokTrans]
        rw [hi, ho]
      rw [List.map_congr_left hpt, ← List.map_map, List.enumFrom_map_snd]
    · have h1 : (EvaluatedMachine.ofMachine m p).stateAt s = emptyEvalState := by
        unfold EvaluatedMachine.stateAt
        rw [List.getD_eq_default _ _ (by omega)]
      rw [(explicitMachine_stateAt _ s).2, h1]
      unfold Machine.stateAt
      rw [List.getD_eq_default _ _ hs]
      exact List.Perm.refl _

/-- C4 (counterexample): on the advancing machine `mC4` the reconstructed
per-state transition order is the token-map iteration order, which
reverses the original emission order recorded by `transIndex`: the claim
that `explicitMachine` preserves the original emission order is false. -/
theorem explicitMachine_order_counterexample :
    (evaluate mC4 none = Except.ok (EvaluatedMachine.ofMachine mC4 none)) ∧
    ((mC4.stateAt 0).trans.map (fun t => (t.inp, t.out)) = [("x", ""), ("", "y")]) ∧
    (((EvaluatedMachine.ofMachine mC4 none).explicitMachine.stateAt 0).trans.map
        (fun t => (t.inp, t.out)) = [("", "y"), ("x", "")]) ∧
    (((EvaluatedMachine.ofMachine mC4 none).explicitMachine.stateAt 0).trans.map
        (fun t => (t.inp, t.out))
      ≠ (mC4.stateAt 0).trans.map (fun t => (t.inp, t.out))) := by
  refine ⟨rfl, rfl, rfl, ?_⟩
  rw [show ((EvaluatedMachine.ofMachine mC4 none).explicitMachine.stateAt 0).trans.map
      (fun t => (t.inp, t.out)) = [("", "y"), ("x", "")] from rfl]
  rw [show (mC4.stateAt 0).trans.map (fun t => (t.inp, t.out))
      = [("x", ""), ("", "y")] from rfl]
  decide

/-- C8 (amended): whenever the geometric series of output-empty weights
converges (`HasSum` to `G`), `sumInTrans` returns the element-wise log
of `G` and its diagonal entries are non-negative; and whenever a value
is returned, the diagonal entry of a state with no output-empty outgoing
transitions is `log 1 = 0`. -/
theorem sumInTrans_diag_amended (em : EvaluatedMachine) :
    (∀ G, HasSum (fun k => em.nullTransMat ^ k) G →
        ((em.sumInTrans).2 = Except.ok (fun s d => Real.log (G s d)) ∧
         ∀ s : Fin em.nStates, 0 ≤ Real.log (G s s))) ∧
    (∀ L, (em.sumInTrans).2 = Except.ok L →
        ∀ s : Fin em.nStates, em.nullEntriesAt s.val = [] → L s s = 0) := by
  have hNn : ∀ s d : Fin em.nStates, 0 ≤ em.nullTransMat s d := by
    intro s d
    unfold EvaluatedMachine.nullTransMat EvaluatedMachine.nullTransWeight
    apply List.sum_nonneg
    intro x hx
    rw [List.mem_map] at hx
    obtain ⟨e, _, rfl⟩ := hx
    exact Real.exp_nonneg _
  constructor
  · intro G hG
    obtain ⟨m1, m2, hinv, hdet⟩ := geom_hasSum_inverse em.nullTransMat G hG
    constructor
    · rw [sumInTrans_eq]
      dsimp only
      rw [closureLoop_fst_matrix, if_neg hdet, hinv]
    · intro s
      exact Real.log_nonneg (geom_diag_ge_one em.nullTransMat G hNn hG s)
  · intro L hL s hrow
    rw [sumInTrans_eq] at hL
    dsimp only at hL
    by_cases hdet : ((em.closureLoop).1).det = 0
    · rw [if_pos hdet] at hL
      exact absurd hL (by simp)
    · rw [if_neg hdet] at hL
      have hLe := Except.ok.inj hL
      rw [← hLe]
      have hrow0 : ∀ d : Fin em.nStates, em.nullTransMat s d = 0 := by
        intro d
        unfold EvaluatedMachine.nullTransMat EvaluatedMachine.nullTransWeight
        rw [hrow]
        simp
      have hdet' : ((1 : Matrix (Fin em.nStates) (Fin em.nStates) ℝ)
          - em.nullTransMat).det ≠ 0 := by
        rwa [closureLoop_fst_matrix] at hdet
      have h1 := inv_diag_one_of_zero_row em.nullTransMat s hrow0 hdet'
      show Real.log ((em.closureLoop).1⁻¹ s s) = 0
      rw [closureLoop_fst_matrix, h1, Real.log_one]

/-- C8 (counterexample): `mC8` is advancing, yet with no params its three
output-empty self-loops give `M = 1 - 3 = -2`, so `sumInTrans` returns
`log (-1/2) = log (1/2) < 0`: the claimed `sumInTrans()[s][s] ≥ 0` fails. -/
theorem sumInTrans_diag_counterexample :
    (mC8.isAdvancingMachine = true) ∧
    ∃ L, ((EvaluatedMachine.ofMachine mC8 none).sumInTrans).2 = Except.ok L ∧
      ∃ s : Fin (EvaluatedMachine.ofMachine mC8 none).nStates, L s s < 0 := by
  have hent : (EvaluatedMachine.ofMachine mC8 none).nullEntriesAt 0
      = [(0, ⟨0, 0⟩), (0, ⟨0, 1⟩), (0, ⟨0, 2⟩)] := rfl
  have hw : (EvaluatedMachine.ofMachine mC8 none).nullTransWeight 0 0 = 3 := by
    unfold EvaluatedMachine.nullTransWeight
    rw [hent]
    norm_num [Real.exp_zero, List.sum_cons, List.sum_nil]
  have hval : ∀ s d : Fin (EvaluatedMachine.ofMachine mC8 none).nStates,
      ((EvaluatedMachine.ofMachine mC8 none).closureLoop).1 s d = -2 := by
    intro s d
    have hs1 : s.val < 1 := s.isLt
    have hd1 : d.val < 1 := d.isLt
    have hs0 : s.val = 0 := by omega
    have hd0 : d.val = 0 := by omega
    rw [closureLoop_fst, hs0, hd0, if_pos rfl, hw]
    norm_num
  have hdet1 : (((EvaluatedMachine.ofMachine mC8 none).closureLoop).1).det = -2 :=
    (Matrix.det_fin_one (((EvaluatedMachine.ofMachine mC8 none).closureLoop).1)).trans
      (hval _ _)
  refine ⟨rfl, fun s d => Real.log ((((EvaluatedMachine.ofMachine mC8 none).closureLoop).1)⁻¹ s d), ?_, ?_⟩
  · rw [sumInTrans_eq]
    dsimp only
    rw [if_neg (by rw [hdet1]; norm_num)]
  · refine ⟨⟨0, by decide⟩, ?_⟩
    have hadj := Matrix.adjugate_fin_one (((EvaluatedMachine.ofMachine mC8 none).closureLoop).1)
    rw [Matrix.inv_def, hdet1, hadj]
    dsimp only
    rw [Matrix.smul_apply, Matrix.one_apply_eq, Ring.inverse_eq_inv]
    rw [show ((-2 : ℝ))⁻¹ • (1 : ℝ) = -(1/2) by norm_num]
    rw [show (-(1/2) : ℝ) = -((1:ℝ)/2) from rfl, Real.log_neg_eq_log]
    exact Real.log_neg (by norm_num) (by norm_num)

/-- The convergence premise of the closure claims is satisfiable: for the
transition-free machine the output-empty weight matrix is zero and its
geometric series sums to the identity. -/
theorem mNull_geom_hasSum :
    HasSum (fun k => (EvaluatedMachine.ofMachine mNull none).nullTransMat ^ k)
      (1 : Matrix (Fin (EvaluatedMachine.ofMachine mNull none).nStates)
        (Fin (EvaluatedMachine.ofMachine mNull none).nStates) ℝ) := by
  have hN : (EvaluatedMachine.ofMachine mNull none).nullTransMat = 0 := by
    ext s d
    have hs1 : s.val < 1 := s.isLt
    have hs0 : s.val = 0 := by omega
    have hd1 : d.val < 1 := d.isLt
    have hd0 : d.val = 0 := by omega
    unfold EvaluatedMachine.nullTransMat EvaluatedMachine.nullTransWeight
    rw [hs0, hd0]
    rw [show (EvaluatedMachine.ofMachine mNull none).nullEntriesAt 0 = [] from rfl]
    simp
  rw [hN]
  have hsingle := hasSum_single (f := fun k =>
    ((0 : Matrix (Fin (EvaluatedMachine.ofMachine mNull none).nStates)
      (Fin (EvaluatedMachine.ofMachine mNull none).nStates) ℝ)) ^ k) 0
    (fun b hb => zero_pow hb)
  simpa using hsingle
